import Mathlib

/-!
Verification of the value-separation policies, sorted-file footer framing and
external-iterator behavior of the pebble repository.

Byte strings are embedded as `List Nat` with each element a byte value; machine
integers (`uint64`, `int64`) are embedded as `Nat`, with an explicit `% 2 ^ 64`
wherever the Go code's fixed-width arithmetic can overflow.
-/

set_option maxRecDepth 4000

namespace Pebble

/-! ## Varint coding and block handles

`parseFooter` and `footer.encode` (src/unnamed/part_002) decode and encode
block handles through `block.DecodeHandle` / `Handle.EncodeVarints`, which wrap
Go's `encoding/binary` unsigned varints.  Those helpers are not among the
provided sources, so they are modelled here from the spec's description of the
footer ("two block-handle varint pairs") together with Go's documented varint
format. -/

/-- Fuel-driven loop of `putUvarint`; the fuel only bounds the recursion depth
and never runs out when it starts at the encoded number (`putUvarintGo_congr`
below). -/
def putUvarintGo : Nat → Nat → List Nat
  | 0, x => [x]
  | fuel + 1, x =>
    if x < 128 then [x] else (x % 128 + 128) :: putUvarintGo fuel (x / 128)

/-- Modelled from the spec: Go `encoding/binary.PutUvarint`.  Little-endian
base-128 digits, high bit set on every byte except the last. -/
def putUvarint (x : Nat) : List Nat :=
  putUvarintGo x x

/-- Modelled from the spec: the loop of Go `encoding/binary.Uvarint`.
`none` stands for Go's "buffer too small" (`n = 0`) and 64-bit overflow
(`n < 0`) results, both of which `parseFooter` reports as corruption. -/
def uvarintAux : List Nat → Nat → Nat → Nat → Option (Nat × Nat)
  | [], _, _, _ => Option.none
  | b :: rest, x, s, i =>
    if i = 10 then Option.none
    else if b < 128 then
      if i = 9 ∧ 1 < b then Option.none
      else some (x + b * 2 ^ s, i + 1)
    else uvarintAux rest (x + (b - 128) * 2 ^ s) (s + 7) (i + 1)

/-- Modelled from the spec: Go `encoding/binary.Uvarint`. -/
def uvarint (buf : List Nat) : Option (Nat × Nat) :=
  uvarintAux buf 0 0 0

/-- A block handle: an offset and a length (`block.Handle`, the `uint64`
fields embedded as `Nat`). -/
structure BlockHandle where
  offset : Nat
  length : Nat
deriving DecidableEq

/-- Modelled from the spec: `block.Handle.EncodeVarints` — the offset varint
followed by the length varint. -/
def encodeVarints (h : BlockHandle) : List Nat :=
  putUvarint h.offset ++ putUvarint h.length

/-- Modelled from the spec: `block.DecodeHandle` — two varints decoded back to
back; failure of either decode yields the `n == 0` result that `parseFooter`
treats as corruption. -/
def decodeHandle (src : List Nat) : Option (BlockHandle × Nat) :=
  match uvarint src with
  | Option.none => Option.none
  | some (off, n) =>
    match uvarint (src.drop n) with
    | Option.none => Option.none
    | some (len, m) => some ({ offset := off, length := len }, n + m)

/-! ## Footer constants (src/unnamed/part_002, `footer constants`) -/

def blockHandleMaxLenWithoutProperties : Nat := 10 + 10

def levelDBFooterLen : Nat := 48

def levelDBMagic : List Nat := [0x57, 0xfb, 0x80, 0x8b, 0x24, 0x75, 0x47, 0xdb]

def rocksDBFooterLen : Nat := 1 + 2 * blockHandleMaxLenWithoutProperties + 4 + 8

def rocksDBMagic : List Nat := [0xf7, 0xcf, 0xf4, 0x85, 0xb7, 0x41, 0xe2, 0x88]

def rocksDBMagicOffset : Nat := rocksDBFooterLen - 8

def rocksDBVersionOffset : Nat := rocksDBMagicOffset - 4

def pebbleDBMagic : List Nat := [0xf0, 0x9f, 0xaa, 0xb3, 0xf0, 0x9f, 0xaa, 0xb3]

def minFooterLen : Nat := levelDBFooterLen

def maxFooterLen : Nat := rocksDBFooterLen

/-- Embedding of `block.ChecksumType`.  Byte values as in the block package: None = 0,
CRC32c = 1, XXHash = 2, XXHash64 = 3. -/
inductive ChecksumType where
  | typeNone
  | crc32c
  | xxhash
  | xxhash64
deriving DecidableEq

def ChecksumType.toByte : ChecksumType → Nat
  | .typeNone => 0
  | .crc32c => 1
  | .xxhash => 2
  | .xxhash64 => 3

/-- The checksum-type switch of `parseFooter`: only CRC32c and XXHash64 are
accepted; everything else is corruption. -/
def checksumFromByte (b : Nat) : Option ChecksumType :=
  if b = ChecksumType.crc32c.toByte then some ChecksumType.crc32c
  else if b = ChecksumType.xxhash64.toByte then some ChecksumType.xxhash64
  else Option.none

/-- Embedding of `sstable.TableFormat`. -/
inductive TableFormat where
  | unspecified
  | levelDB
  | rocksDBv2
  | pebblev1
  | pebblev2
  | pebblev3
  | pebblev4
deriving DecidableEq

/-- Modelled from the spec: `ParseTableFormat` (called by `parseFooter` but
defined outside the provided sources) maps a recognized magic string and
footer-version field to a table format, rejecting unknown versions. -/
def parseTableFormat (magic : List Nat) (version : Nat) : Option TableFormat :=
  if magic = levelDBMagic then some TableFormat.levelDB
  else if magic = rocksDBMagic then
    if version = 2 then some TableFormat.rocksDBv2 else Option.none
  else if magic = pebbleDBMagic then
    if version = 1 then some TableFormat.pebblev1
    else if version = 2 then some TableFormat.pebblev2
    else if version = 3 then some TableFormat.pebblev3
    else if version = 4 then some TableFormat.pebblev4
    else Option.none
  else Option.none

/-- Modelled from the spec: `TableFormat.AsTuple`, used by `footer.encode`;
`none` models the Go panic on an unspecified format. -/
def TableFormat.asTuple : TableFormat → Option (List Nat × Nat)
  | .unspecified => Option.none
  | .levelDB => some (levelDBMagic, 0)
  | .rocksDBv2 => some (rocksDBMagic, 2)
  | .pebblev1 => some (pebbleDBMagic, 1)
  | .pebblev2 => some (pebbleDBMagic, 2)
  | .pebblev3 => some (pebbleDBMagic, 3)
  | .pebblev4 => some (pebbleDBMagic, 4)

/-- Little-endian 32-bit read (`binary.LittleEndian.Uint32`). -/
def le32 (buf : List Nat) : Nat :=
  buf.getD 0 0 + 256 * buf.getD 1 0 + 65536 * buf.getD 2 0 + 16777216 * buf.getD 3 0

/-- Little-endian 32-bit write (`binary.LittleEndian.PutUint32`). -/
def putLE32 (v : Nat) : List Nat :=
  [v % 256, v / 256 % 256, v / 65536 % 256, v / 16777216 % 256]

/-- The `footer` struct of src/unnamed/part_002. -/
structure Footer where
  format : TableFormat
  checksum : ChecksumType
  metaindexBH : BlockHandle
  indexBH : BlockHandle
  footerBH : BlockHandle
deriving DecidableEq

/-- The trailing 8 bytes of a buffer, as inspected by `parseFooter`'s magic
switch. -/
def magicOf (buf : List Nat) : List Nat :=
  buf.drop (buf.length - 8)

/-- The handle-decoding block shared by both branches of `parseFooter`
(src/unnamed/part_002 lines 348-361): decode the metaindex handle and the index
handle, reporting corruption when a decode fails or a handle reaches past the
end of the file.  The sums are reduced modulo `2 ^ 64` because the Go code
compares `Offset+Length` in `uint64` arithmetic. -/
def checkHandles (buf : List Nat) (size : Nat) (f : Footer) : Option Footer :=
  match decodeHandle buf with
  | Option.none => Option.none
  | some (mi, n) =>
    if (mi.offset + mi.length) % 2 ^ 64 > size then Option.none
    else
      match decodeHandle (buf.drop n) with
      | Option.none => Option.none
      | some (idx, _) =>
        if (idx.offset + idx.length) % 2 ^ 64 > size then Option.none
        else some { f with metaindexBH := mi, indexBH := idx }

/-- Embedding of `parseFooter` (src/unnamed/part_002 lines 304-364).  `none` models every
corruption-error return. -/
def parseFooter (buf : List Nat) (off size : Nat) : Option Footer :=
  if magicOf buf = levelDBMagic then
    if buf.length < levelDBFooterLen then Option.none
    else
      checkHandles (buf.drop (buf.length - levelDBFooterLen)) size
        { format := TableFormat.levelDB
          checksum := ChecksumType.crc32c
          metaindexBH := { offset := 0, length := 0 }
          indexBH := { offset := 0, length := 0 }
          footerBH := { offset := off + buf.length - levelDBFooterLen,
                        length := levelDBFooterLen } }
  else if magicOf buf = rocksDBMagic ∨ magicOf buf = pebbleDBMagic then
    if buf.length < rocksDBFooterLen then Option.none
    else
      match parseTableFormat (magicOf buf)
          (le32 ((buf.drop (buf.length - rocksDBFooterLen)).drop
            rocksDBVersionOffset)) with
      | Option.none => Option.none
      | some fmt =>
        match checksumFromByte ((buf.drop (buf.length - rocksDBFooterLen)).getD 0 0) with
        | Option.none => Option.none
        | some cs =>
          checkHandles ((buf.drop (buf.length - rocksDBFooterLen)).drop 1) size
            { format := fmt
              checksum := cs
              metaindexBH := { offset := 0, length := 0 }
              indexBH := { offset := 0, length := 0 }
              footerBH := { offset := off + buf.length - rocksDBFooterLen,
                            length := rocksDBFooterLen } }
  else Option.none

/-- Embedding of `readFooter` (src/unnamed/part_002 lines 262-302) restricted to its pure
content: the I/O read is embedded as slicing the in-memory file contents, and
the I/O-error return paths are not represented.  The file-size check and the
final-`maxFooterLen`-bytes windowing are exactly the source's. -/
def readFooter (file : List Nat) : Option Footer :=
  if file.length < minFooterLen then Option.none
  else
    parseFooter (file.drop (file.length - maxFooterLen))
      (file.length - maxFooterLen) file.length

/-- Embedding of `footer.encode` (src/unnamed/part_002 lines 366-401).  `none` models the
panic on an unspecified table format.  The varint area is padded with zeros to
`2 * blockHandleMaxLenWithoutProperties` bytes, matching `clear(buf)` plus the
fixed offsets used for the version and magic. -/
def encodeFooter (f : Footer) : Option (List Nat) :=
  match f.format.asTuple with
  | Option.none => Option.none
  | some (magic, version) =>
    if magic = levelDBMagic then
      let hs := encodeVarints f.metaindexBH ++ encodeVarints f.indexBH
      some ((hs ++ List.replicate (40 - hs.length) 0) ++ levelDBMagic)
    else
      let hs := encodeVarints f.metaindexBH ++ encodeVarints f.indexBH
      some (((f.checksum.toByte :: (hs ++ List.replicate (40 - hs.length) 0)) ++
        putLE32 version) ++ magic)

/-! ## Value separation (src/value_separation.go)

Keys, values and the sstable writer surface used by the two
`compact.ValueSeparation` implementations. -/

/-- Internal key kinds (the ones the value-separation code distinguishes). -/
inductive InternalKeyKind where
  | kSet
  | kMerge
  | kDelete
  | kRangeDelete
deriving DecidableEq

/-- Embedding of `base.InternalKey`: user key, sequence number, kind. -/
structure InternalKey where
  userKey : List Nat
  seqNum : Nat
  kind : InternalKeyKind
deriving DecidableEq

/-- Embedding of `blob.HandleSuffix`: block number and offset-in-block locator. -/
structure HandleSuffix where
  blockNum : Nat
  offsetInBlock : Nat
deriving DecidableEq

/-- The value of an `base.InternalKV`.  `blobValueHandle` carries the decoded
fields a blob-handle value exposes (`Fetcher.BlobFileNum`,
`Fetcher.Attribute.ValueLen`, `Fetcher.Attribute.ShortAttribute`, the handle
suffix held in `ValueOrHandle`) together with `fetched`, the bytes that
`kv.Value` returns when the value is fetched. -/
inductive KVValue where
  | inPlace (v : List Nat)
  | blobValueHandle (fileNum : Nat) (valueLen : Nat) (shortAttr : Nat)
      (suffix : HandleSuffix) (fetched : List Nat)
deriving DecidableEq

/-- Embedding of `kv.Value(...)`: the fetched value bytes (the fetch is embedded as already
in memory and cannot fail). -/
def KVValue.fetch : KVValue → List Nat
  | .inPlace v => v
  | .blobValueHandle _ _ _ _ fetched => fetched

/-- Embedding of `kv.V.IsBlobValueHandle()`. -/
def KVValue.isBlobValueHandle : KVValue → Bool
  | .inPlace _ => false
  | .blobValueHandle _ _ _ _ _ => true

/-- Embedding of `base.InternalKV`. -/
structure InternalKV where
  k : InternalKey
  v : KVValue
deriving DecidableEq

/-- Embedding of `blob.InlineHandle`: preface (reference index, value length) plus handle
suffix. -/
structure InlineHandle where
  referenceIndex : Nat
  valueLen : Nat
  suffix : HandleSuffix
deriving DecidableEq

/-- One write issued to the output `sstable.RawWriter`: either `tw.Add` of an
in-place value or `tw.AddWithBlobHandle` of an inline blob handle. -/
inductive SSTEntry where
  | addValue (k : InternalKey) (v : List Nat) (forceObsolete : Bool)
  | addWithBlobHandle (k : InternalKey) (h : InlineHandle) (shortAttr : Nat)
      (forceObsolete : Bool)
deriving DecidableEq

/-- The reference index stored by an entry, when the entry is a blob handle. -/
def SSTEntry.refIdx? : SSTEntry → Option Nat
  | .addValue _ _ _ => Option.none
  | .addWithBlobHandle _ h _ _ => some h.referenceIndex

/-- Whether the entry stores a blob handle rather than an in-place value. -/
def SSTEntry.isBlob (e : SSTEntry) : Bool :=
  e.refIdx?.isSome

/-- Embedding of `base.Comparer` restricted to the two operations the value-separation code
uses: `Compare` and `Split` (the spec treats the comparator as an injected
pure function). -/
structure Comparer where
  compare : List Nat → List Nat → Ordering
  split : List Nat → Nat

/-- Embedding of `Split.Prefix`: the key truncated to its split point. -/
def Comparer.splitPref (c : Comparer) (k : List Nat) : List Nat :=
  k.take (c.split k)

/-- Modelled from the spec: `UserKeyPrefixBound` — the configured "must stay
in place" key-prefix range `[lower, upper)`; it is empty when both bounds are
empty byte strings.  The type itself is declared outside the provided
sources. -/
structure UserKeyPrefixBound where
  lower : List Nat
  upper : List Nat
deriving DecidableEq

def UserKeyPrefixBound.isEmpty (b : UserKeyPrefixBound) : Bool :=
  b.lower.isEmpty && b.upper.isEmpty

/-- Embedding of `manifest.BlobFileMetadata` (creation time, a wall-clock read, is not
represented). -/
structure BlobFileMetadata where
  fileNum : Nat
  size : Nat
  valueSize : Nat
deriving DecidableEq

/-- Embedding of `manifest.BlobReference`. -/
structure BlobReference where
  fileNum : Nat
  valueSize : Nat
  metadata : Option BlobFileMetadata
deriving DecidableEq

/-- Embedding of `blob.FileWriterStats` restricted to the fields the code under test
reads. -/
structure BlobFileStats where
  uncompressedValueBytes : Nat
  fileLen : Nat
deriving DecidableEq

/-- Embedding of `compact.ValueSeparationMetadata` restricted to the fields the claims are
about. -/
structure ValueSeparationMetadata where
  blobReferences : List BlobReference
  blobReferenceSize : Nat
  blobReferenceDepth : Nat
  blobFileMetadata : Option BlobFileMetadata
deriving DecidableEq

/-- Modelled from the spec: `blob.FileWriter` — a single-writer, append-only
blob file holding the values separated so far (§4.5, §6). -/
structure BlobFileWriter where
  fileNum : Nat
  values : List (List Nat)
deriving DecidableEq

/-- Modelled from the spec: `blob.FileWriter.AddValue` appends the value and
returns a handle carrying the value length and a (block, offset-in-block)
locator (§6: "values addressed by (block number, offset-in-block) pairs plus a
value-length"). -/
def BlobFileWriter.addValue (w : BlobFileWriter) (v : List Nat) :
    BlobFileWriter × Nat × HandleSuffix :=
  ({ w with values := w.values ++ [v] },
   v.length,
   { blockNum := 0, offsetInBlock := (w.values.map List.length).sum })

/-- Modelled from the spec: the statistics returned by
`blob.FileWriter.Close` — accumulated uncompressed value bytes and the file
length (§4.5; compression is not represented, so the two coincide). -/
def BlobFileWriter.stats (w : BlobFileWriter) : BlobFileStats :=
  { uncompressedValueBytes := (w.values.map List.length).sum
    fileLen := (w.values.map List.length).sum }

/-- The `writeNewBlobFiles` policy state.  `newBlobFileNum` embeds
`newBlobObject`: the disk file number the next created blob object receives
(object creation is embedded as infallible). -/
structure WriteNewBlobFiles where
  comparer : Comparer
  shortAttrExtractor : Option (List Nat → Nat → List Nat → Nat)
  minimumSize : Nat
  requiredInPlaceValueBound : UserKeyPrefixBound
  newBlobFileNum : Nat
  writer : Option BlobFileWriter
  objMetaFileNum : Nat

/-- The blob-file contents held by the policy's current writer (empty when no
blob file has been created). -/
def WriteNewBlobFiles.blobValues (vs : WriteNewBlobFiles) : List (List Nat) :=
  match vs.writer with
  | Option.none => []
  | some w => w.values

/-- The separation path of `writeNewBlobFiles.Add` (src/value_separation.go
lines 107-155): extract the short attribute, lazily create the blob writer,
append the value, and write an inline handle with reference index 0 to the
sstable. -/
def writeNewSeparate (vs : WriteNewBlobFiles) (kv : InternalKV) (v : List Nat)
    (forceObsolete : Bool) : WriteNewBlobFiles × SSTEntry :=
  let shortAttr :=
    match vs.shortAttrExtractor with
    | Option.none => 0
    | some f => f kv.k.userKey (vs.comparer.split kv.k.userKey) v
  let w0 :=
    match vs.writer with
    | Option.none => { fileNum := vs.newBlobFileNum, values := [] : BlobFileWriter }
    | some w => w
  let objFileNum :=
    match vs.writer with
    | Option.none => vs.newBlobFileNum
    | some _ => vs.objMetaFileNum
  let res := w0.addValue v
  ({ vs with writer := some res.1, objMetaFileNum := objFileNum },
   SSTEntry.addWithBlobHandle kv.k
     { referenceIndex := 0, valueLen := res.2.1, suffix := res.2.2 }
     shortAttr forceObsolete)

/-- Embedding of `writeNewBlobFiles.Add` (src/value_separation.go lines 71-155). -/
def writeNewAdd (vs : WriteNewBlobFiles) (kv : InternalKV) (forceObsolete : Bool) :
    WriteNewBlobFiles × SSTEntry :=
  let v := kv.v.fetch
  if v.length < vs.minimumSize then
    (vs, SSTEntry.addValue kv.k v forceObsolete)
  else if kv.k.kind = InternalKeyKind.kMerge then
    (vs, SSTEntry.addValue kv.k v forceObsolete)
  else if vs.requiredInPlaceValueBound.isEmpty = false then
    let kPref := vs.comparer.splitPref kv.k.userKey
    if (vs.comparer.compare vs.requiredInPlaceValueBound.upper kPref ≠ Ordering.gt) then
      -- the bound lies entirely below this key's prefix: clear it and separate
      writeNewSeparate
        { vs with requiredInPlaceValueBound := { lower := [], upper := [] } }
        kv v forceObsolete
    else if (vs.comparer.compare kPref vs.requiredInPlaceValueBound.lower ≠ Ordering.lt) then
      (vs, SSTEntry.addValue kv.k v forceObsolete)
    else
      writeNewSeparate vs kv v forceObsolete
  else
    writeNewSeparate vs kv v forceObsolete

/-- Embedding of `writeNewBlobFiles.FinishOutput` (src/value_separation.go lines 159-184):
with no writer, empty metadata; otherwise close the blob file and return its
single reference with depth 1. -/
def writeNewFinishOutput (vs : WriteNewBlobFiles) :
    ValueSeparationMetadata × WriteNewBlobFiles :=
  match vs.writer with
  | Option.none =>
    ({ blobReferences := [], blobReferenceSize := 0, blobReferenceDepth := 0,
       blobFileMetadata := Option.none }, vs)
  | some w =>
    let stats := w.stats
    ({ blobReferences := [{ fileNum := vs.objMetaFileNum,
                            valueSize := stats.uncompressedValueBytes,
                            metadata := Option.none }]
       blobReferenceSize := stats.uncompressedValueBytes
       blobReferenceDepth := 1
       blobFileMetadata := some { fileNum := vs.objMetaFileNum,
                                  size := stats.fileLen,
                                  valueSize := stats.uncompressedValueBytes } },
     { vs with writer := Option.none })

/-- Fold `writeNewBlobFiles.Add` over a sequence of key-value pairs, collecting
the sstable writes. -/
def writeNewProcess (vs : WriteNewBlobFiles) :
    List (InternalKV × Bool) → WriteNewBlobFiles × List SSTEntry
  | [] => (vs, [])
  | (kv, fo) :: rest =>
    let r := writeNewAdd vs kv fo
    let r2 := writeNewProcess r.1 rest
    (r2.1, r.2 :: r2.2)

/-- The `preserveBlobReferences` policy state (src/value_separation.go lines
191-203). -/
structure PreserveBlobReferences where
  inputBlobMetadatas : List BlobFileMetadata
  outputBlobReferenceDepth : Nat
  currReferences : List BlobReference
  totalValueSize : Nat
deriving DecidableEq

/-- The policy state at the start of a compaction: no references accumulated
yet. -/
def preserveInit (metas : List BlobFileMetadata) (depth : Nat) :
    PreserveBlobReferences :=
  { inputBlobMetadatas := metas, outputBlobReferenceDepth := depth,
    currReferences := [], totalValueSize := 0 }

/-- The linear scan over `vs.currReferences` in `preserveBlobReferences.Add`
(lines 254-262): the index of the existing reference to this blob file, if
any. -/
def findRefIdx (fn : Nat) : List BlobReference → Option Nat
  | [] => Option.none
  | r :: rest =>
    if r.fileNum = fn then some 0 else (findRefIdx fn rest).map (· + 1)

/-- Fuel-driven loop of `slices.BinarySearchFunc` as instantiated by
`findInputBlobMetadata`; the fuel only bounds the depth and the interval width
it starts at never runs out. -/
def bsearchGo (ms : List BlobFileMetadata) (fn : Nat) : Nat → Nat → Nat → Nat
  | 0, i, _ => i
  | fuel + 1, i, j =>
    if i < j then
      if (ms.getD ((i + j) / 2) { fileNum := 0, size := 0, valueSize := 0 }).fileNum < fn then
        bsearchGo ms fn fuel ((i + j) / 2 + 1) j
      else
        bsearchGo ms fn fuel i ((i + j) / 2)
    else i

/-- The loop of `slices.BinarySearchFunc` as instantiated by
`findInputBlobMetadata`. -/
def bsearchLoop (ms : List BlobFileMetadata) (fn : Nat) (i j : Nat) : Nat :=
  bsearchGo ms fn (j - i) i j

/-- Embedding of `preserveBlobReferences.findInputBlobMetadata` (lines 301-306):
`slices.BinarySearchFunc` over the input blob metadatas, comparing file
numbers. -/
def findInputBlobMetadata (ms : List BlobFileMetadata) (fn : Nat) : Nat × Bool :=
  let i := bsearchLoop ms fn 0 ms.length
  (i, decide (i < ms.length ∧
    (ms.getD i { fileNum := 0, size := 0, valueSize := 0 }).fileNum = fn))

/-- Embedding of `vs.currReferences[refIdx].ValueSize += vlen`. -/
def bumpValueSize : List BlobReference → Nat → Nat → List BlobReference
  | [], _, _ => []
  | r :: rest, 0, d => { r with valueSize := r.valueSize + d } :: rest
  | r :: rest, i + 1, d => r :: bumpValueSize rest i d

/-- Embedding of `preserveBlobReferences.Add` (src/value_separation.go lines 230-296).
`none` models the assertion-failure return when an input blob file is missing
from `inputBlobMetadatas`. -/
def preserveAdd (vs : PreserveBlobReferences) (kv : InternalKV)
    (forceObsolete : Bool) : Option (PreserveBlobReferences × SSTEntry) :=
  match kv.v with
  | KVValue.inPlace v => some (vs, SSTEntry.addValue kv.k v forceObsolete)
  | KVValue.blobValueHandle fn vlen sattr suffix _ =>
    let step := fun (refs : List BlobReference) (refIdx : Nat) =>
      some ({ vs with currReferences := bumpValueSize refs refIdx vlen,
                      totalValueSize := vs.totalValueSize + vlen },
            SSTEntry.addWithBlobHandle kv.k
              { referenceIndex := refIdx, valueLen := vlen, suffix := suffix }
              sattr forceObsolete)
    match findRefIdx fn vs.currReferences with
    | some refIdx => step vs.currReferences refIdx
    | Option.none =>
      let r := findInputBlobMetadata vs.inputBlobMetadatas fn
      if r.2 then
        step (vs.currReferences ++
          [{ fileNum := fn, valueSize := 0,
             metadata := some (vs.inputBlobMetadatas.getD r.1
               { fileNum := 0, size := 0, valueSize := 0 }) }])
          vs.currReferences.length
      else Option.none

/-- Embedding of `preserveBlobReferences.FinishOutput` (src/value_separation.go lines
309-326): return the accumulated references with their summed value sizes and
the depth reduced to the count of unique referenced files, resetting the
reference list (`totalValueSize` is left as the source leaves it). -/
def preserveFinishOutput (vs : PreserveBlobReferences) :
    ValueSeparationMetadata × PreserveBlobReferences :=
  let references := vs.currReferences
  ({ blobReferences := references
     blobReferenceSize := (references.map (fun r => r.valueSize)).sum
     blobReferenceDepth := min vs.outputBlobReferenceDepth references.length
     blobFileMetadata := Option.none },
   { vs with currReferences := [] })

/-- Fold `preserveBlobReferences.Add` over a sequence of key-value pairs,
collecting the sstable writes; an error in any `Add` aborts the whole run. -/
def preserveProcess (vs : PreserveBlobReferences) :
    List (InternalKV × Bool) → Option (PreserveBlobReferences × List SSTEntry)
  | [] => some (vs, [])
  | (kv, fo) :: rest =>
    match preserveAdd vs kv fo with
    | Option.none => Option.none
    | some (vs', e) =>
      match preserveProcess vs' rest with
      | Option.none => Option.none
      | some (vs'', es) => some (vs'', e :: es)

/-! ## First-appearance order of blob file numbers

Specification-side bookkeeping used to state the dense re-indexing property of
`preserveBlobReferences`. -/

/-- Append `a` unless it is already present. -/
def addFirstOcc (acc : List Nat) (a : Nat) : List Nat :=
  if a ∈ acc then acc else acc ++ [a]

/-- Left fold of `addFirstOcc`: the accumulator extended with the new elements
of `l` in order of first appearance. -/
def firstOccAux (acc : List Nat) : List Nat → List Nat
  | [] => acc
  | a :: l => firstOccAux (addFirstOcc acc a) l

/-- The distinct elements of `l` in order of first appearance. -/
def firstOccList (l : List Nat) : List Nat :=
  firstOccAux [] l

/-- The index of the first occurrence of `a` in `l` (length of `l` if
absent). -/
def idxOfA (a : Nat) : List Nat → Nat
  | [] => 0
  | b :: l => if b = a then 0 else idxOfA a l + 1

/-- The blob file number referenced by a key-value pair's value, when the
value is a blob handle. -/
def kvBlobFileNum? (kv : InternalKV) : Option Nat :=
  match kv.v with
  | KVValue.inPlace _ => Option.none
  | KVValue.blobValueHandle fn _ _ _ _ => some fn

/-- The blob file numbers of the blob-handle values in a run of `Add` calls,
in input order (with repetitions). -/
def blobFns (kvs : List (InternalKV × Bool)) : List Nat :=
  kvs.filterMap (fun p => kvBlobFileNum? p.1)

/-! ## External / merging iterator scenarios (src/testdata/external_iterator)

The merging iterator itself is not among the provided sources (only its test
data and test drivers are), so the read path is modelled from the spec. -/

/-- Lexicographic strict order on byte strings (the default comparer's
ordering). -/
def byteLt : List Nat → List Nat → Bool
  | [], [] => false
  | [], _ :: _ => true
  | _ :: _, [] => false
  | a :: as, b :: bs => if a < b then true else if b < a then false else byteLt as bs

def byteLe (a b : List Nat) : Bool :=
  !byteLt b a

/-- A point key in an input file: user key, sequence number, value. -/
structure PointKV where
  key : List Nat
  seq : Nat
  val : List Nat
deriving DecidableEq

/-- A range deletion `[lo, hi)` at a sequence number. -/
structure RangeDel where
  lo : List Nat
  hi : List Nat
  seq : Nat
deriving DecidableEq

/-- An input file for the external iterator: point keys and range
deletions. -/
structure ExtFile where
  points : List PointKV
  rangeDels : List RangeDel
deriving DecidableEq

/-- Whether the range deletion's span covers the user key. -/
def RangeDel.covers (rd : RangeDel) (k : List Nat) : Bool :=
  byteLe rd.lo k && byteLt k rd.hi

def allPoints (files : List ExtFile) : List PointKV :=
  files.foldr (fun f acc => f.points ++ acc) []

def allRangeDels (files : List ExtFile) : List RangeDel :=
  files.foldr (fun f acc => f.rangeDels ++ acc) []

/-- Modelled from the spec: the §4.6 visibility rule for an unrestricted read
(sequence-number ceiling at the maximum).  A point key is surfaced unless an
overlapping range deletion with a strictly higher sequence number shadows it,
or a newer point key with the same user key supersedes it. -/
def pointVisible (pts : List PointKV) (dels : List RangeDel) (p : PointKV) : Bool :=
  (dels.all fun rd => !(rd.covers p.key && decide (p.seq < rd.seq))) &&
  (pts.all fun q => !(q.key == p.key && decide (p.seq < q.seq)))

def insertPt (p : PointKV) : List PointKV → List PointKV
  | [] => [p]
  | q :: rest => if byteLe p.key q.key then p :: q :: rest else q :: insertPt p rest

def sortPts : List PointKV → List PointKV
  | [] => []
  | p :: rest => insertPt p (sortPts rest)

/-- Modelled from the spec: the forward scan of a merging iterator over a set
of files (§4.6) — seek-to-first followed by repeated next, listing the
surfaced point keys with their values in key order. -/
def mergingIterScan (files : List ExtFile) : List (List Nat × List Nat) :=
  let pts := allPoints files
  let dels := allRangeDels files
  (sortPts (pts.filter (pointVisible pts dels))).map (fun p => (p.key, p.val))

/-- File 1 of src/testdata/external_iterator: `set b b`, `set c c` at sequence
numbers 1 and 2. -/
def extFile1 : ExtFile :=
  { points := [{ key := [98], seq := 1, val := [98] },
               { key := [99], seq := 2, val := [99] }]
    rangeDels := [] }

/-- File 2 of src/testdata/external_iterator: `del-range c z` at sequence
number 3. -/
def extFile2 : ExtFile :=
  { points := []
    rangeDels := [{ lo := [99], hi := [122], seq := 3 }] }

/-- File 3 of src/testdata/external_iterator: `set a a`, `set f f` at sequence
numbers 4 and 5. -/
def extFile3 : ExtFile :=
  { points := [{ key := [97], seq := 4, val := [97] },
               { key := [102], seq := 5, val := [102] }]
    rangeDels := [] }

/-! ## Helper lemmas: varint round trip -/

/-! ## Concrete instances and layout shorthands used by the claims -/

/-- A 48-byte file consisting only of a legacy footer whose metaindex handle
encodes offset `2 ^ 64 - 1` (a ten-byte varint) and length 2, followed by an
index handle `(0, 0)`, zero padding, and the LevelDB magic. -/
def wrapHandleFile : List Nat :=
  ([0xff, 0xff, 0xff, 0xff, 0xff, 0xff, 0xff, 0xff, 0xff, 0x01, 0x02, 0x00, 0x00] ++
    List.replicate 27 0) ++ levelDBMagic

/-- Witness for C4 (amended): a concrete valid pebble-format file whose footer
is returned, with the bound-check conclusion instantiated. -/
def c4WitnessFile : List Nat :=
  [7, 7, 7] ++ (encodeFooter
    { format := TableFormat.pebblev2, checksum := ChecksumType.crc32c,
      metaindexBH := { offset := 3, length := 5 },
      indexBH := { offset := 8, length := 2 },
      footerBH := { offset := 0, length := 0 } }).getD []

def c4WitnessFooter : Footer :=
  { format := TableFormat.pebblev2, checksum := ChecksumType.crc32c,
    metaindexBH := { offset := 3, length := 5 },
    indexBH := { offset := 8, length := 2 },
    footerBH := { offset := 3, length := 53 } }

/-- The 48-byte legacy footer layout produced by `footer.encode` for the
LevelDB format. -/
def ldbLayout (mi idx : BlockHandle) : List Nat :=
  ((encodeVarints mi ++ encodeVarints idx) ++
    List.replicate (40 - (encodeVarints mi ++ encodeVarints idx).length) 0) ++
  levelDBMagic

/-- The 53-byte footer layout produced by `footer.encode` for the non-legacy
formats. -/
def rdbLayout (cs : ChecksumType) (mi idx : BlockHandle) (version : Nat)
    (magic : List Nat) : List Nat :=
  ((cs.toByte :: ((encodeVarints mi ++ encodeVarints idx) ++
      List.replicate (40 - (encodeVarints mi ++ encodeVarints idx).length) 0)) ++
    putLE32 version) ++ magic

/-- Whether a footer's checksum type is one its format's layout can carry and
parsing accepts: the legacy format fixes CRC32c; the other formats accept
CRC32c or XXHash64. -/
def validChecksum (f : Footer) : Prop :=
  (f.format = TableFormat.levelDB → f.checksum = ChecksumType.crc32c) ∧
  (f.format ≠ TableFormat.levelDB →
    f.checksum = ChecksumType.crc32c ∨ f.checksum = ChecksumType.xxhash64)

/-- Witness footer for C9: a pebble-format footer with CRC32c checksum and
small in-bounds handles. -/
def c9Foot : Footer :=
  { format := TableFormat.pebblev2, checksum := ChecksumType.crc32c,
    metaindexBH := { offset := 3, length := 5 },
    indexBH := { offset := 8, length := 2 },
    footerBH := { offset := 0, length := 0 } }

def c9Pre : List Nat := [7, 7, 7]

def c9Enc : List Nat := (encodeFooter c9Foot).getD []

/-- Witness footer for C8: a RocksDBv2 footer with XXHash64 checksum, parsed
at offset 0 in a 53-byte file. -/
def c8Foot : Footer :=
  { format := TableFormat.rocksDBv2, checksum := ChecksumType.xxhash64,
    metaindexBH := { offset := 1, length := 2 },
    indexBH := { offset := 3, length := 4 },
    footerBH := { offset := 0, length := 0 } }

def c8Buf : List Nat := (encodeFooter c8Foot).getD []

/-- The claim's "the key's prefix lies within the configured required-in-place
key-prefix bound": the bound is nonempty and the key's prefix is in
`[lower, upper)` under the comparer's ordering. -/
def inRequiredInPlaceBound (c : Comparer) (b : UserKeyPrefixBound)
    (userKey : List Nat) : Prop :=
  b.isEmpty = false ∧ c.compare b.upper (c.splitPref userKey) = Ordering.gt ∧
  c.compare (c.splitPref userKey) b.lower ≠ Ordering.lt

/-- Lexicographic comparison on byte strings (the default comparer's
`Compare`). -/
def byteCompare : List Nat → List Nat → Ordering
  | [], [] => Ordering.eq
  | [], _ :: _ => Ordering.lt
  | _ :: _, [] => Ordering.gt
  | a :: as, b :: bs =>
    if a < b then Ordering.lt else if b < a then Ordering.gt else byteCompare as bs

/-- A concrete comparer used to instantiate witnesses: bytewise comparison,
with the whole key as its own prefix. -/
def defaultComparer : Comparer :=
  { compare := byteCompare, split := List.length }

def c1State : WriteNewBlobFiles :=
  { comparer := defaultComparer, shortAttrExtractor := Option.none,
    minimumSize := 3, requiredInPlaceValueBound := { lower := [50], upper := [60] },
    newBlobFileNum := 42, writer := Option.none, objMetaFileNum := 0 }

def c1KV : InternalKV :=
  { k := { userKey := [10], seqNum := 1, kind := InternalKeyKind.kSet },
    v := KVValue.inPlace [1, 2, 3, 4] }

def c7KVs : List (InternalKV × Bool) :=
  [({ k := { userKey := [10], seqNum := 1, kind := InternalKeyKind.kSet },
      v := KVValue.inPlace [1] }, false),
   ({ k := { userKey := [70], seqNum := 2, kind := InternalKeyKind.kSet },
      v := KVValue.inPlace [1, 2, 3, 4] }, false)]

def c2Metas : List BlobFileMetadata :=
  [{ fileNum := 7, size := 100, valueSize := 50 },
   { fileNum := 9, size := 10, valueSize := 5 }]

def c2KV1 : InternalKV :=
  { k := { userKey := [97], seqNum := 1, kind := InternalKeyKind.kSet },
    v := KVValue.blobValueHandle 9 4 0 { blockNum := 0, offsetInBlock := 0 }
      [1, 2] }

def c2KVs : List (InternalKV × Bool) := [(c2KV1, false)]

def c2VS : PreserveBlobReferences :=
  { inputBlobMetadatas := c2Metas, outputBlobReferenceDepth := 3,
    currReferences :=
      [{ fileNum := 9, valueSize := 4, metadata := some { fileNum := 9, size := 10, valueSize := 5 } }],
    totalValueSize := 4 }

def c2ES : List SSTEntry :=
  [SSTEntry.addWithBlobHandle c2KV1.k
    { referenceIndex := 0, valueLen := 4,
      suffix := { blockNum := 0, offsetInBlock := 0 } } 0 false]

def c3VS : PreserveBlobReferences :=
  { c2VS with outputBlobReferenceDepth := 1 }

def c10KV : InternalKV :=
  { k := { userKey := [97], seqNum := 1, kind := InternalKeyKind.kSet },
    v := KVValue.blobValueHandle 7 5 0 { blockNum := 0, offsetInBlock := 0 }
      [1, 2, 3, 4, 5] }

theorem putUvarintGo_congr :
    ∀ (f1 x f2 : Nat), x ≤ f1 → x ≤ f2 →
      putUvarintGo f1 x = putUvarintGo f2 x := by
  intro f1
  induction f1 with
  | zero =>
    intro x f2 h1 _
    have hx : x = 0 := by omega
    subst hx
    cases f2 with
    | zero => rfl
    | succ f2 => simp [putUvarintGo]
  | succ f1 ih =>
    intro x f2 h1 h2
    cases f2 with
    | zero =>
      have hx : x = 0 := by omega
      subst hx
      simp [putUvarintGo]
    | succ f2 =>
      by_cases hx : x < 128
      · simp [putUvarintGo, hx]
      · simp only [putUvarintGo, hx, if_false]
        congr 1
        exact ih (x / 128) f2 (by omega) (by omega)

theorem putUvarint_small {x : Nat} (h : x < 128) : putUvarint x = [x] := by
  cases x with
  | zero => rfl
  | succ n => simp [putUvarint, putUvarintGo, h]

theorem putUvarint_large {x : Nat} (h : ¬ x < 128) :
    putUvarint x = (x % 128 + 128) :: putUvarint (x / 128) := by
  obtain ⟨f, rfl⟩ : ∃ f, x = f + 1 := ⟨x - 1, by omega⟩
  rw [putUvarint, putUvarintGo]
  simp only [h, if_false]
  rw [putUvarint]
  congr 1
  exact putUvarintGo_congr f ((f + 1) / 128) ((f + 1) / 128) (by omega) (by omega)

theorem putUvarint_length_le :
    ∀ (n x : Nat), 1 ≤ n → x < 128 ^ n → (putUvarint x).length ≤ n := by
  intro n
  induction n with
  | zero => omega
  | succ n ih =>
    intro x _ hx
    by_cases h : x < 128
    · rw [putUvarint_small h]
      simp
    · rw [putUvarint_large h]
      have hn : 1 ≤ n := by
        by_contra hn
        have : n = 0 := by omega
        subst this
        simp [pow_succ] at hx
        omega
      have hdiv : x / 128 < 128 ^ n := by
        rw [Nat.div_lt_iff_lt_mul (by omega)]
        calc x < 128 ^ (n + 1) := hx
        _ = 128 ^ n * 128 := by rw [pow_succ]
      have := ih (x / 128) hn hdiv
      simp only [List.length_cons]
      omega

theorem uvarintAux_putUvarint :
    ∀ (x : Nat) (rest : List Nat) (acc s i : Nat),
      i + (putUvarint x).length ≤ 9 →
      uvarintAux (putUvarint x ++ rest) acc s i =
        some (acc + x * 2 ^ s, i + (putUvarint x).length) := by
  intro x
  induction x using Nat.strong_induction_on with
  | _ x ih =>
    intro rest acc s i hlen
    by_cases hx : x < 128
    · rw [putUvarint_small hx] at hlen ⊢
      simp only [List.cons_append, List.nil_append, List.length_cons,
        List.length_nil] at hlen ⊢
      rw [uvarintAux]
      have h10 : ¬ i = 10 := by omega
      have h9 : ¬ (i = 9 ∧ 1 < x) := by omega
      simp [h10, hx, h9]
    · rw [putUvarint_large hx] at hlen ⊢
      simp only [List.length_cons] at hlen
      have hpos : 1 ≤ (putUvarint (x / 128)).length := by
        by_cases h : x / 128 < 128
        · rw [putUvarint_small h]; simp
        · rw [putUvarint_large h]; simp
      rw [List.cons_append, uvarintAux]
      have h10 : ¬ i = 10 := by omega
      have hb : ¬ x % 128 + 128 < 128 := by omega
      simp only [h10, if_false, hb, if_false]
      have hrec := ih (x / 128) (Nat.div_lt_self (by omega) (by omega)) rest
        (acc + (x % 128 + 128 - 128) * 2 ^ s) (s + 7) (i + 1) (by omega)
      rw [hrec]
      congr 2
      · have h1 : x % 128 + 128 - 128 = x % 128 := by omega
        rw [h1]
        have h2 : (2 : Nat) ^ (s + 7) = 2 ^ s * 128 := by
          rw [pow_add]; norm_num
        rw [h2]
        have h3 : x % 128 * 2 ^ s + x / 128 * (2 ^ s * 128) =
            (x % 128 + 128 * (x / 128)) * 2 ^ s := by ring
        rw [add_assoc, h3, Nat.mod_add_div x 128]
      · simp only [List.length_cons]
        omega

theorem uvarint_putUvarint {x : Nat} (rest : List Nat) (hx : x < 2 ^ 63) :
    uvarint (putUvarint x ++ rest) = some (x, (putUvarint x).length) := by
  have hlen : (putUvarint x).length ≤ 9 := by
    apply putUvarint_length_le 9 x (by omega)
    have : (128 : Nat) ^ 9 = 2 ^ 63 := by norm_num
    omega
  have := uvarintAux_putUvarint x rest 0 0 0 (by omega)
  simpa [uvarint] using this

theorem decodeHandle_encodeVarints (h : BlockHandle) (rest : List Nat)
    (ho : h.offset < 2 ^ 63) (hl : h.length < 2 ^ 63) :
    decodeHandle (encodeVarints h ++ rest) =
      some (h, (encodeVarints h).length) := by
  rw [decodeHandle, encodeVarints, List.append_assoc,
    uvarint_putUvarint (putUvarint h.length ++ rest) ho]
  simp only [List.drop_left]
  rw [uvarint_putUvarint rest hl]
  simp [encodeVarints]

/-! ## Helper lemmas: footer parsing -/

theorem checkHandles_some {buf : List Nat} {size : Nat} {f0 f : Footer}
    (h : checkHandles buf size f0 = some f) :
    (f.metaindexBH.offset + f.metaindexBH.length) % 2 ^ 64 ≤ size ∧
    (f.indexBH.offset + f.indexBH.length) % 2 ^ 64 ≤ size ∧
    f.format = f0.format ∧ f.checksum = f0.checksum ∧ f.footerBH = f0.footerBH := by
  rw [checkHandles] at h
  split at h
  · exact absurd h (by simp)
  next mi n _hd =>
    split at h
    · exact absurd h (by simp)
    next hmi =>
      split at h
      · exact absurd h (by simp)
      next idx m _hd2 =>
        split at h
        · exact absurd h (by simp)
        next hidx =>
          cases h
          refine ⟨?_, ?_, rfl, rfl, rfl⟩
          · simp only
            omega
          · simp only
            omega

theorem parseFooter_some_bounds {buf : List Nat} {off size : Nat} {f : Footer}
    (h : parseFooter buf off size = some f) :
    (f.metaindexBH.offset + f.metaindexBH.length) % 2 ^ 64 ≤ size ∧
    (f.indexBH.offset + f.indexBH.length) % 2 ^ 64 ≤ size := by
  rw [parseFooter] at h
  split at h
  · split at h
    · exact absurd h (by simp)
    · exact ⟨(checkHandles_some h).1, (checkHandles_some h).2.1⟩
  · split at h
    · split at h
      · exact absurd h (by simp)
      · split at h
        · exact absurd h (by simp)
        · split at h
          · exact absurd h (by simp)
          · exact ⟨(checkHandles_some h).1, (checkHandles_some h).2.1⟩
    · exact absurd h (by simp)

theorem magicOf_drop (file : List Nat) (off : Nat) (h : off + 8 ≤ file.length) :
    magicOf (file.drop off) = magicOf file := by
  unfold magicOf
  rw [List.length_drop, List.drop_drop]
  congr 1
  omega

theorem parseFooter_none_of_bad_magic {buf : List Nat} {off size : Nat}
    (h1 : magicOf buf ≠ levelDBMagic) (h2 : magicOf buf ≠ rocksDBMagic)
    (h3 : magicOf buf ≠ pebbleDBMagic) :
    parseFooter buf off size = Option.none := by
  rw [parseFooter]
  simp [h1, h2, h3]

/-! ## Claim C4: footer validation -/

/-- C4 is falsified as stated: footer parsing performs the handle bound check
in wrapping 64-bit arithmetic, so a metaindex handle with offset `2 ^ 64 - 1`
and length 2 wraps to 1, passes the check, and a footer is returned even
though the handle's offset plus length far exceeds the 48-byte file size. -/
theorem readFooter_wrapped_handle_cex :
    readFooter wrapHandleFile =
      some { format := TableFormat.levelDB, checksum := ChecksumType.crc32c,
             metaindexBH := { offset := 18446744073709551615, length := 2 },
             indexBH := { offset := 0, length := 0 },
             footerBH := { offset := 0, length := 48 } } ∧
    18446744073709551615 + 2 > wrapHandleFile.length := by
  constructor
  · decide
  · decide

/-- C4 (amended): footer parsing reports a corruption error (returning no
footer) whenever the file is smaller than the minimum footer length and
whenever the trailing magic is none of the three recognized magics, and every
returned footer's metaindex and index handles satisfy the source's bound
check, in which offset plus length is computed in wrapping 64-bit
arithmetic (so only the sums reduced modulo `2 ^ 64` are bounded by the file
size). -/
theorem readFooter_validation (file : List Nat) :
    (file.length < minFooterLen → readFooter file = Option.none) ∧
    (magicOf file ≠ levelDBMagic → magicOf file ≠ rocksDBMagic →
      magicOf file ≠ pebbleDBMagic → readFooter file = Option.none) ∧
    (∀ f, readFooter file = some f →
      (f.metaindexBH.offset + f.metaindexBH.length) % 2 ^ 64 ≤ file.length ∧
      (f.indexBH.offset + f.indexBH.length) % 2 ^ 64 ≤ file.length) := by
  refine ⟨?_, ?_, ?_⟩
  · intro h
    rw [readFooter]
    simp [h]
  · intro h1 h2 h3
    rw [readFooter]
    split
    · rfl
    next hlen =>
      have h48 : 48 ≤ file.length := by
        simpa [minFooterLen, levelDBFooterLen] using hlen
      have hmag : magicOf (file.drop (file.length - maxFooterLen)) = magicOf file := by
        apply magicOf_drop
        have : maxFooterLen = 53 := by decide
        omega
      apply parseFooter_none_of_bad_magic <;> rw [hmag] <;> assumption
  · intro f hf
    rw [readFooter] at hf
    split at hf
    · exact absurd hf (by simp)
    · exact parseFooter_some_bounds hf

theorem readFooter_validation_witness :
    readFooter c4WitnessFile = some c4WitnessFooter ∧
    (c4WitnessFooter.metaindexBH.offset + c4WitnessFooter.metaindexBH.length) % 2 ^ 64 ≤
      c4WitnessFile.length ∧
    (c4WitnessFooter.indexBH.offset + c4WitnessFooter.indexBH.length) % 2 ^ 64 ≤
      c4WitnessFile.length :=
  ⟨by decide, (readFooter_validation c4WitnessFile).2.2 c4WitnessFooter (by decide)⟩

/-! ## Helper lemmas: footer encoding -/

theorem encodeVarints_length_le (h : BlockHandle) (ho : h.offset < 2 ^ 63)
    (hl : h.length < 2 ^ 63) : (encodeVarints h).length ≤ 18 := by
  have h63 : (128 : Nat) ^ 9 = 2 ^ 63 := by norm_num
  have h1 := putUvarint_length_le 9 h.offset (by omega) (by omega)
  have h2 := putUvarint_length_le 9 h.length (by omega) (by omega)
  simp only [encodeVarints, List.length_append]
  omega

theorem le32_putLE32 (v : Nat) (rest : List Nat) (hv : v < 2 ^ 32) :
    le32 (putLE32 v ++ rest) = v := by
  simp only [putLE32, List.cons_append, List.nil_append, le32, List.getD_cons_zero,
    List.getD_cons_succ]
  omega

theorem drop_tail_append {α : Type} (pre enc : List α) (k : Nat)
    (hk : k ≤ enc.length) :
    (pre ++ enc).drop ((pre ++ enc).length - k) = enc.drop (enc.length - k) := by
  rw [List.length_append]
  have h : pre.length + enc.length - k = pre.length + (enc.length - k) := by omega
  rw [h, List.drop_append]

theorem drop_window {α : Type} (file : List α) (j k : Nat) (hkj : k ≤ j) :
    (file.drop (file.length - j)).drop ((file.drop (file.length - j)).length - k) =
      file.drop (file.length - k) := by
  rw [List.length_drop, List.drop_drop]
  congr 1
  omega

theorem checkHandles_on_encoded (mi idx : BlockHandle) (rest : List Nat)
    (size : Nat) (f0 : Footer)
    (hmi : mi.offset + mi.length ≤ size) (hidx : idx.offset + idx.length ≤ size)
    (hsize : size < 2 ^ 63) :
    checkHandles ((encodeVarints mi ++ encodeVarints idx) ++ rest) size f0 =
      some { f0 with metaindexBH := mi, indexBH := idx } := by
  have hmo : mi.offset < 2 ^ 63 := by omega
  have hml : mi.length < 2 ^ 63 := by omega
  have hio : idx.offset < 2 ^ 63 := by omega
  have hil : idx.length < 2 ^ 63 := by omega
  have e1 : (mi.offset + mi.length) % 2 ^ 64 = mi.offset + mi.length :=
    Nat.mod_eq_of_lt (by omega)
  have e2 : (idx.offset + idx.length) % 2 ^ 64 = idx.offset + idx.length :=
    Nat.mod_eq_of_lt (by omega)
  rw [checkHandles, List.append_assoc, decodeHandle_encodeVarints mi _ hmo hml]
  simp only [e1, List.drop_left]
  rw [if_neg (by omega), decodeHandle_encodeVarints idx rest hio hil]
  simp only [e2]
  rw [if_neg (by omega)]

theorem ldbLayout_length (mi idx : BlockHandle)
    (ho : mi.offset < 2 ^ 63) (hl : mi.length < 2 ^ 63)
    (ho' : idx.offset < 2 ^ 63) (hl' : idx.length < 2 ^ 63) :
    (ldbLayout mi idx).length = 48 := by
  have h1 := encodeVarints_length_le mi ho hl
  have h2 := encodeVarints_length_le idx ho' hl'
  have : levelDBMagic.length = 8 := by decide
  simp only [ldbLayout, List.length_append, List.length_replicate, this]
  omega

theorem rdbLayout_length (cs : ChecksumType) (mi idx : BlockHandle)
    (version : Nat) (magic : List Nat) (hm : magic.length = 8)
    (ho : mi.offset < 2 ^ 63) (hl : mi.length < 2 ^ 63)
    (ho' : idx.offset < 2 ^ 63) (hl' : idx.length < 2 ^ 63) :
    (rdbLayout cs mi idx version magic).length = 53 := by
  have h1 := encodeVarints_length_le mi ho hl
  have h2 := encodeVarints_length_le idx ho' hl'
  have h4 : (putLE32 version).length = 4 := by simp [putLE32]
  simp only [rdbLayout, List.length_append, List.length_cons,
    List.length_replicate, hm, h4]
  omega

theorem parseFooter_on_ldbLayout (mi idx : BlockHandle) (buf : List Nat)
    (off size : Nat)
    (hmi : mi.offset + mi.length ≤ size) (hidx : idx.offset + idx.length ≤ size)
    (hsize : size < 2 ^ 63)
    (hbuflen : ¬ buf.length < levelDBFooterLen)
    (hmagic : magicOf buf = levelDBMagic)
    (hwindow : buf.drop (buf.length - levelDBFooterLen) = ldbLayout mi idx) :
    parseFooter buf off size =
      some { format := TableFormat.levelDB, checksum := ChecksumType.crc32c,
             metaindexBH := mi, indexBH := idx,
             footerBH := { offset := off + buf.length - levelDBFooterLen,
                           length := levelDBFooterLen } } := by
  rw [parseFooter, if_pos hmagic, if_neg hbuflen, hwindow, ldbLayout,
    List.append_assoc, checkHandles_on_encoded mi idx _ size _ hmi hidx hsize]

theorem parseFooter_on_rdbLayout (fmt : TableFormat) (magic : List Nat)
    (version : Nat) (cs : ChecksumType) (mi idx : BlockHandle) (buf : List Nat)
    (off size : Nat)
    (hmagic_ne : magic ≠ levelDBMagic)
    (hmagic_or : magic = rocksDBMagic ∨ magic = pebbleDBMagic)
    (hptf : parseTableFormat magic version = some fmt)
    (hcs : checksumFromByte cs.toByte = some cs)
    (hv : version < 2 ^ 32)
    (hmi : mi.offset + mi.length ≤ size) (hidx : idx.offset + idx.length ≤ size)
    (hsize : size < 2 ^ 63)
    (hbuflen : ¬ buf.length < rocksDBFooterLen)
    (hmagic : magicOf buf = magic)
    (hwindow : buf.drop (buf.length - rocksDBFooterLen) =
      rdbLayout cs mi idx version magic)
    (hlay : (encodeVarints mi ++ encodeVarints idx).length ≤ 40) :
    parseFooter buf off size =
      some { format := fmt, checksum := cs,
             metaindexBH := mi, indexBH := idx,
             footerBH := { offset := off + buf.length - rocksDBFooterLen,
                           length := rocksDBFooterLen } } := by
  have hne : ¬ magicOf buf = levelDBMagic := by rw [hmagic]; exact hmagic_ne
  have hor : magicOf buf = rocksDBMagic ∨ magicOf buf = pebbleDBMagic := by
    rw [hmagic]; exact hmagic_or
  have hpadlen : ((encodeVarints mi ++ encodeVarints idx) ++
      List.replicate (40 - (encodeVarints mi ++ encodeVarints idx).length) 0).length
        = 40 := by
    simp only [List.length_append, List.length_replicate] at hlay ⊢
    omega
  have hver : le32 ((buf.drop (buf.length - rocksDBFooterLen)).drop
      rocksDBVersionOffset) = version := by
    rw [hwindow, rdbLayout]
    have h41 : rocksDBVersionOffset = 41 := by decide
    have hsplit : ((cs.toByte :: ((encodeVarints mi ++ encodeVarints idx) ++
        List.replicate (40 - (encodeVarints mi ++ encodeVarints idx).length) 0)) ++
          putLE32 version) ++ magic =
        (cs.toByte :: ((encodeVarints mi ++ encodeVarints idx) ++
          List.replicate (40 - (encodeVarints mi ++ encodeVarints idx).length) 0)) ++
          (putLE32 version ++ magic) := by
      rw [List.append_assoc]
    rw [hsplit, h41]
    have hlen41 : (cs.toByte :: ((encodeVarints mi ++ encodeVarints idx) ++
        List.replicate (40 - (encodeVarints mi ++ encodeVarints idx).length) 0)).length
          = 41 := by
      simp only [List.length_cons, hpadlen]
    rw [show (41 : Nat) = (cs.toByte :: ((encodeVarints mi ++ encodeVarints idx) ++
        List.replicate (40 - (encodeVarints mi ++ encodeVarints idx).length) 0)).length
        from hlen41.symm, List.drop_left]
    exact le32_putLE32 version magic hv
  have hcs0 : (buf.drop (buf.length - rocksDBFooterLen)).getD 0 0 = cs.toByte := by
    rw [hwindow, rdbLayout]
    simp
  have hdrop1 : (buf.drop (buf.length - rocksDBFooterLen)).drop 1 =
      (encodeVarints mi ++ encodeVarints idx) ++
        (List.replicate (40 - (encodeVarints mi ++ encodeVarints idx).length) 0 ++
          (putLE32 version ++ magic)) := by
    rw [hwindow, rdbLayout]
    simp only [List.cons_append, List.drop_succ_cons, List.drop_zero,
      List.append_assoc]
  rw [parseFooter, if_neg hne, if_pos hor, if_neg hbuflen, hver, hmagic, hptf]
  simp only
  rw [hcs0, hcs]
  simp only
  rw [hdrop1, checkHandles_on_encoded mi idx _ size _ hmi hidx hsize]

theorem magicOf_append (A m : List Nat) (hm : m.length = 8) :
    magicOf (A ++ m) = m := by
  unfold magicOf
  rw [drop_tail_append A m 8 (by omega), hm]
  simp

theorem checksumFromByte_toByte {cs : ChecksumType}
    (h : cs = ChecksumType.crc32c ∨ cs = ChecksumType.xxhash64) :
    checksumFromByte cs.toByte = some cs := by
  rcases h with rfl | rfl <;> decide

theorem roundTrip_rdb_case (f : Footer) (pre enc magic : List Nat) (version : Nat)
    (hmagic_ne : magic ≠ levelDBMagic)
    (hmagic_or : magic = rocksDBMagic ∨ magic = pebbleDBMagic)
    (hptf : parseTableFormat magic version = some f.format)
    (hm8 : magic.length = 8) (hv : version < 2 ^ 32)
    (hcsv : f.checksum = ChecksumType.crc32c ∨ f.checksum = ChecksumType.xxhash64)
    (henc : enc = rdbLayout f.checksum f.metaindexBH f.indexBH version magic)
    (hmi : f.metaindexBH.offset + f.metaindexBH.length ≤ (pre ++ enc).length)
    (hidx : f.indexBH.offset + f.indexBH.length ≤ (pre ++ enc).length)
    (hsize : (pre ++ enc).length < 2 ^ 63) :
    ∃ f', readFooter (pre ++ enc) = some f' ∧ f'.format = f.format ∧
      f'.checksum = f.checksum ∧ f'.metaindexBH = f.metaindexBH ∧
      f'.indexBH = f.indexBH := by
  have hencLen : enc.length = 53 := by
    rw [henc]
    exact rdbLayout_length f.checksum f.metaindexBH f.indexBH version magic hm8
      (by omega) (by omega) (by omega) (by omega)
  have hL : (pre ++ enc).length = pre.length + 53 := by
    rw [List.length_append, hencLen]
  have h53 : rocksDBFooterLen = 53 := by decide
  have h53' : maxFooterLen = 53 := by decide
  have h48 : minFooterLen = 48 := by decide
  have hbufLen : ((pre ++ enc).drop ((pre ++ enc).length - maxFooterLen)).length =
      (pre ++ enc).length - ((pre ++ enc).length - maxFooterLen) :=
    List.length_drop _ _
  have hlay : (encodeVarints f.metaindexBH ++ encodeVarints f.indexBH).length ≤ 40 := by
    have h1 := encodeVarints_length_le f.metaindexBH (by omega) (by omega)
    have h2 := encodeVarints_length_le f.indexBH (by omega) (by omega)
    simp only [List.length_append]
    omega
  have hnotlt : ¬ ((pre ++ enc).length < minFooterLen) := by omega
  have hblen : ¬ ((pre ++ enc).drop ((pre ++ enc).length - maxFooterLen)).length <
      rocksDBFooterLen := by
    rw [hbufLen]
    omega
  have hmag : magicOf ((pre ++ enc).drop ((pre ++ enc).length - maxFooterLen)) =
      magic := by
    unfold magicOf
    rw [drop_window (pre ++ enc) maxFooterLen 8 (by decide),
      drop_tail_append pre enc 8 (by omega)]
    have h8 : enc.drop (enc.length - 8) = magicOf enc := rfl
    rw [h8, henc, rdbLayout, magicOf_append _ _ hm8]
  have hwin : ((pre ++ enc).drop ((pre ++ enc).length - maxFooterLen)).drop
      (((pre ++ enc).drop ((pre ++ enc).length - maxFooterLen)).length -
        rocksDBFooterLen) =
      rdbLayout f.checksum f.metaindexBH f.indexBH version magic := by
    rw [drop_window (pre ++ enc) maxFooterLen rocksDBFooterLen (by decide),
      drop_tail_append pre enc rocksDBFooterLen (by omega), henc,
      show (rdbLayout f.checksum f.metaindexBH f.indexBH version magic).length -
        rocksDBFooterLen = 0 from by rw [← henc]; omega]
    simp
  have hparse := parseFooter_on_rdbLayout f.format magic version f.checksum
    f.metaindexBH f.indexBH ((pre ++ enc).drop ((pre ++ enc).length - maxFooterLen))
    ((pre ++ enc).length - maxFooterLen) (pre ++ enc).length
    hmagic_ne hmagic_or hptf (checksumFromByte_toByte hcsv) hv hmi hidx hsize
    hblen hmag hwin hlay
  have hread : readFooter (pre ++ enc) =
      some { format := f.format, checksum := f.checksum,
             metaindexBH := f.metaindexBH, indexBH := f.indexBH,
             footerBH :=
               { offset :=
                   (pre ++ enc).length - maxFooterLen +
                     ((pre ++ enc).drop ((pre ++ enc).length - maxFooterLen)).length -
                     rocksDBFooterLen
                 length := rocksDBFooterLen } } := by
    rw [readFooter, if_neg hnotlt]
    exact hparse
  exact ⟨_, hread, rfl, rfl, rfl, rfl⟩

/-- C9: encoding a footer that has a recognized table format, a checksum type
valid for that format, and metaindex/index handles lying within the file
bounds, then parsing the file formed by any prefix followed by the encoded
bytes, succeeds and recovers the same table format, checksum type, metaindex
handle and index handle. -/
theorem footer_encode_parse_roundTrip (f : Footer) (pre enc : List Nat)
    (henc : encodeFooter f = some enc)
    (hck : validChecksum f)
    (hmi : f.metaindexBH.offset + f.metaindexBH.length ≤ (pre ++ enc).length)
    (hidx : f.indexBH.offset + f.indexBH.length ≤ (pre ++ enc).length)
    (hsize : (pre ++ enc).length < 2 ^ 63) :
    ∃ f', readFooter (pre ++ enc) = some f' ∧ f'.format = f.format ∧
      f'.checksum = f.checksum ∧ f'.metaindexBH = f.metaindexBH ∧
      f'.indexBH = f.indexBH := by
  cases hfmt : f.format with
  | unspecified =>
    rw [encodeFooter, hfmt] at henc
    exact absurd henc (by simp [TableFormat.asTuple])
  | levelDB =>
    have henc' : enc = ldbLayout f.metaindexBH f.indexBH := by
      rw [encodeFooter, hfmt] at henc
      simp only [TableFormat.asTuple, if_true] at henc
      rw [ldbLayout]
      simpa using henc.symm
    have hcs : f.checksum = ChecksumType.crc32c := hck.1 hfmt
    have hencLen : enc.length = 48 := by
      rw [henc']
      exact ldbLayout_length f.metaindexBH f.indexBH (by omega) (by omega)
        (by omega) (by omega)
    have hL : (pre ++ enc).length = pre.length + 48 := by
      rw [List.length_append, hencLen]
    have h53' : maxFooterLen = 53 := by decide
    have h48 : levelDBFooterLen = 48 := by decide
    have h48' : minFooterLen = 48 := by decide
    have hbufLen : ((pre ++ enc).drop ((pre ++ enc).length - maxFooterLen)).length =
        (pre ++ enc).length - ((pre ++ enc).length - maxFooterLen) :=
      List.length_drop _ _
    have hnotlt : ¬ ((pre ++ enc).length < minFooterLen) := by omega
    have hblen : ¬ ((pre ++ enc).drop ((pre ++ enc).length - maxFooterLen)).length <
        levelDBFooterLen := by
      rw [hbufLen]
      omega
    have hmag : magicOf ((pre ++ enc).drop ((pre ++ enc).length - maxFooterLen)) =
        levelDBMagic := by
      unfold magicOf
      rw [drop_window (pre ++ enc) maxFooterLen 8 (by decide),
        drop_tail_append pre enc 8 (by omega)]
      have h8 : enc.drop (enc.length - 8) = magicOf enc := rfl
      rw [h8, henc', ldbLayout, magicOf_append _ _ (by decide)]
    have hwin : ((pre ++ enc).drop ((pre ++ enc).length - maxFooterLen)).drop
        (((pre ++ enc).drop ((pre ++ enc).length - maxFooterLen)).length -
          levelDBFooterLen) =
        ldbLayout f.metaindexBH f.indexBH := by
      rw [drop_window (pre ++ enc) maxFooterLen levelDBFooterLen (by decide),
        drop_tail_append pre enc levelDBFooterLen (by omega), henc',
        show (ldbLayout f.metaindexBH f.indexBH).length - levelDBFooterLen = 0
          from by rw [← henc']; omega]
      simp
    have hparse := parseFooter_on_ldbLayout f.metaindexBH f.indexBH
      ((pre ++ enc).drop ((pre ++ enc).length - maxFooterLen))
      ((pre ++ enc).length - maxFooterLen) (pre ++ enc).length
      hmi hidx hsize hblen hmag hwin
    have hread : readFooter (pre ++ enc) =
        some { format := TableFormat.levelDB, checksum := ChecksumType.crc32c,
               metaindexBH := f.metaindexBH, indexBH := f.indexBH,
               footerBH :=
                 { offset :=
                     (pre ++ enc).length - maxFooterLen +
                       ((pre ++ enc).drop ((pre ++ enc).length - maxFooterLen)).length -
                       levelDBFooterLen
                   length := levelDBFooterLen } } := by
      rw [readFooter, if_neg hnotlt]
      exact hparse
    exact ⟨_, hread, rfl, hcs.symm, rfl, rfl⟩
  | rocksDBv2 =>
    rw [← hfmt]
    refine roundTrip_rdb_case f pre enc rocksDBMagic 2 (by decide) (Or.inl rfl)
      (by rw [hfmt]; decide) (by decide) (by decide)
      (hck.2 (by rw [hfmt]; simp)) ?_ hmi hidx hsize
    rw [encodeFooter, hfmt] at henc
    simp only [TableFormat.asTuple] at henc
    rw [if_neg (by decide)] at henc
    rw [rdbLayout]
    simpa using henc.symm
  | pebblev1 =>
    rw [← hfmt]
    refine roundTrip_rdb_case f pre enc pebbleDBMagic 1 (by decide) (Or.inr rfl)
      (by rw [hfmt]; decide) (by decide) (by decide)
      (hck.2 (by rw [hfmt]; simp)) ?_ hmi hidx hsize
    rw [encodeFooter, hfmt] at henc
    simp only [TableFormat.asTuple] at henc
    rw [if_neg (by decide)] at henc
    rw [rdbLayout]
    simpa using henc.symm
  | pebblev2 =>
    rw [← hfmt]
    refine roundTrip_rdb_case f pre enc pebbleDBMagic 2 (by decide) (Or.inr rfl)
      (by rw [hfmt]; decide) (by decide) (by decide)
      (hck.2 (by rw [hfmt]; simp)) ?_ hmi hidx hsize
    rw [encodeFooter, hfmt] at henc
    simp only [TableFormat.asTuple] at henc
    rw [if_neg (by decide)] at henc
    rw [rdbLayout]
    simpa using henc.symm
  | pebblev3 =>
    rw [← hfmt]
    refine roundTrip_rdb_case f pre enc pebbleDBMagic 3 (by decide) (Or.inr rfl)
      (by rw [hfmt]; decide) (by decide) (by decide)
      (hck.2 (by rw [hfmt]; simp)) ?_ hmi hidx hsize
    rw [encodeFooter, hfmt] at henc
    simp only [TableFormat.asTuple] at henc
    rw [if_neg (by decide)] at henc
    rw [rdbLayout]
    simpa using henc.symm
  | pebblev4 =>
    rw [← hfmt]
    refine roundTrip_rdb_case f pre enc pebbleDBMagic 4 (by decide) (Or.inr rfl)
      (by rw [hfmt]; decide) (by decide) (by decide)
      (hck.2 (by rw [hfmt]; simp)) ?_ hmi hidx hsize
    rw [encodeFooter, hfmt] at henc
    simp only [TableFormat.asTuple] at henc
    rw [if_neg (by decide)] at henc
    rw [rdbLayout]
    simpa using henc.symm

theorem footer_encode_parse_roundTrip_witness :
    encodeFooter c9Foot = some c9Enc ∧ validChecksum c9Foot ∧
    c9Foot.metaindexBH.offset + c9Foot.metaindexBH.length ≤ (c9Pre ++ c9Enc).length ∧
    c9Foot.indexBH.offset + c9Foot.indexBH.length ≤ (c9Pre ++ c9Enc).length ∧
    (c9Pre ++ c9Enc).length < 2 ^ 63 ∧
    (∃ f', readFooter (c9Pre ++ c9Enc) = some f' ∧ f'.format = c9Foot.format ∧
      f'.checksum = c9Foot.checksum ∧ f'.metaindexBH = c9Foot.metaindexBH ∧
      f'.indexBH = c9Foot.indexBH) :=
  ⟨by decide, by unfold validChecksum; exact ⟨fun h => (nomatch h), fun _ => Or.inl rfl⟩,
    by decide, by decide, by decide,
    footer_encode_parse_roundTrip c9Foot c9Pre c9Enc (by decide)
      (by unfold validChecksum; exact ⟨fun h => (nomatch h), fun _ => Or.inl rfl⟩)
      (by decide) (by decide) (by decide)⟩

/-! ## Claim C8: three magics, three layouts -/

/-- C8: footer parsing succeeds only under one of the three recognized magics
(which are pairwise distinct); the LevelDB magic selects the 48-byte legacy
layout with the format fixed to LevelDB and the checksum fixed to CRC32c (no
checksum-type byte is read), while the RocksDB and PebbleDB magics select the
53-byte layout whose leading byte determines the checksum type and whose
4-byte version field, together with the magic, determines the table format. -/
theorem parseFooter_three_magics :
    (levelDBMagic ≠ rocksDBMagic ∧ levelDBMagic ≠ pebbleDBMagic ∧
      rocksDBMagic ≠ pebbleDBMagic) ∧
    ∀ (buf : List Nat) (off size : Nat) (f : Footer),
      parseFooter buf off size = some f →
      (magicOf buf = levelDBMagic ∨ magicOf buf = rocksDBMagic ∨
        magicOf buf = pebbleDBMagic) ∧
      (magicOf buf = levelDBMagic →
        f.footerBH.length = levelDBFooterLen ∧ f.format = TableFormat.levelDB ∧
        f.checksum = ChecksumType.crc32c) ∧
      (magicOf buf ≠ levelDBMagic →
        f.footerBH.length = rocksDBFooterLen ∧
        checksumFromByte ((buf.drop (buf.length - rocksDBFooterLen)).getD 0 0) =
          some f.checksum ∧
        parseTableFormat (magicOf buf)
          (le32 ((buf.drop (buf.length - rocksDBFooterLen)).drop
            rocksDBVersionOffset)) = some f.format) := by
  refine ⟨by decide, ?_⟩
  intro buf off size f h
  rw [parseFooter] at h
  split at h
  next hm =>
    split at h
    · exact absurd h (by simp)
    next hlen =>
      obtain ⟨_, _, hfor, hcs, hfbh⟩ := checkHandles_some h
      refine ⟨Or.inl hm, fun _ => ⟨?_, ?_, ?_⟩, fun hne => absurd hm hne⟩
      · rw [hfbh]
      · rw [hfor]
      · rw [hcs]
  next hm =>
    split at h
    next hor =>
      split at h
      · exact absurd h (by simp)
      next hlen =>
        split at h
        · exact absurd h (by simp)
        next fmt hptf =>
          split at h
          · exact absurd h (by simp)
          next cs hcsb =>
            obtain ⟨_, _, hfor, hcs, hfbh⟩ := checkHandles_some h
            refine ⟨Or.inr hor, fun hl => absurd hl hm, fun _ => ⟨?_, ?_, ?_⟩⟩
            · rw [hfbh]
            · rw [hcs]
              exact hcsb
            · rw [hfor]
              exact hptf
    · exact absurd h (by simp)

theorem parseFooter_three_magics_witness :
    parseFooter c8Buf 0 53 =
      some { format := TableFormat.rocksDBv2, checksum := ChecksumType.xxhash64,
             metaindexBH := { offset := 1, length := 2 },
             indexBH := { offset := 3, length := 4 },
             footerBH := { offset := 0, length := 53 } } ∧
    (magicOf c8Buf = levelDBMagic ∨ magicOf c8Buf = rocksDBMagic ∨
      magicOf c8Buf = pebbleDBMagic) :=
  ⟨by decide,
    (parseFooter_three_magics.2 c8Buf 0 53
      { format := TableFormat.rocksDBv2, checksum := ChecksumType.xxhash64,
        metaindexBH := { offset := 1, length := 2 },
        indexBH := { offset := 3, length := 4 },
        footerBH := { offset := 0, length := 53 } } (by decide)).1⟩

/-! ## Claim C1: inline-versus-separate decision of writeNewBlobFiles.Add -/

/-- C1: `writeNewBlobFiles.Add` writes the key-value pair inline through the
sstable writer's `Add` exactly when the value is below the minimum size, the
key kind is Merge, or the key's prefix lies within the required-in-place
bound; in every other case the value is appended to the blob file and the
sstable receives a blob handle carrying the value's length. -/
theorem writeNewAdd_inline_iff (vs : WriteNewBlobFiles) (kv : InternalKV)
    (fo : Bool) :
    ((writeNewAdd vs kv fo).2 = SSTEntry.addValue kv.k kv.v.fetch fo ↔
      (kv.v.fetch.length < vs.minimumSize ∨ kv.k.kind = InternalKeyKind.kMerge ∨
        inRequiredInPlaceBound vs.comparer vs.requiredInPlaceValueBound
          kv.k.userKey)) ∧
    (¬ (kv.v.fetch.length < vs.minimumSize ∨ kv.k.kind = InternalKeyKind.kMerge ∨
        inRequiredInPlaceBound vs.comparer vs.requiredInPlaceValueBound
          kv.k.userKey) →
      (∃ suffix shortAttr,
        (writeNewAdd vs kv fo).2 = SSTEntry.addWithBlobHandle kv.k
          { referenceIndex := 0, valueLen := kv.v.fetch.length, suffix := suffix }
          shortAttr fo) ∧
      (writeNewAdd vs kv fo).1.blobValues = vs.blobValues ++ [kv.v.fetch]) := by
  by_cases h1 : kv.v.fetch.length < vs.minimumSize
  · constructor
    · simp only [writeNewAdd, if_pos h1, iff_true_intro (Or.inl h1), iff_true]
    · intro hc
      exact absurd (Or.inl h1) hc
  · by_cases h2 : kv.k.kind = InternalKeyKind.kMerge
    · constructor
      · simp only [writeNewAdd, if_neg h1, if_pos h2,
          iff_true_intro (Or.inr (Or.inl h2)), iff_true]
      · intro hc
        exact absurd (Or.inr (Or.inl h2)) hc
    · by_cases h3 : vs.requiredInPlaceValueBound.isEmpty = false
      · by_cases h4 : vs.comparer.compare vs.requiredInPlaceValueBound.upper
            (vs.comparer.splitPref kv.k.userKey) ≠ Ordering.gt
        · have hnc : ¬ (kv.v.fetch.length < vs.minimumSize ∨
              kv.k.kind = InternalKeyKind.kMerge ∨
              inRequiredInPlaceBound vs.comparer vs.requiredInPlaceValueBound
                kv.k.userKey) := by
            rintro (h | h | ⟨_, hgt, _⟩)
            · exact h1 h
            · exact h2 h
            · exact h4 hgt
          constructor
          · simp only [writeNewAdd, if_neg h1, if_neg h2, if_pos h3, if_pos h4,
              writeNewSeparate, BlobFileWriter.addValue]
            simp [iff_false_intro hnc]
          · intro _
            constructor
            · simp only [writeNewAdd, if_neg h1, if_neg h2, if_pos h3, if_pos h4,
                writeNewSeparate, BlobFileWriter.addValue]
              exact ⟨_, _, rfl⟩
            · simp only [writeNewAdd, if_neg h1, if_neg h2, if_pos h3, if_pos h4,
                writeNewSeparate, BlobFileWriter.addValue,
                WriteNewBlobFiles.blobValues]
              cases hw : vs.writer <;> simp [hw]
        · by_cases h5 : vs.comparer.compare (vs.comparer.splitPref kv.k.userKey)
              vs.requiredInPlaceValueBound.lower ≠ Ordering.lt
          · have hc : inRequiredInPlaceBound vs.comparer
                vs.requiredInPlaceValueBound kv.k.userKey :=
              ⟨h3, by simpa using h4, h5⟩
            constructor
            · simp only [writeNewAdd, if_neg h1, if_neg h2, if_pos h3, if_neg h4,
                if_pos h5, iff_true_intro (Or.inr (Or.inr hc)), iff_true]
            · intro hnc
              exact absurd (Or.inr (Or.inr hc)) hnc
          · have hnc : ¬ (kv.v.fetch.length < vs.minimumSize ∨
                kv.k.kind = InternalKeyKind.kMerge ∨
                inRequiredInPlaceBound vs.comparer vs.requiredInPlaceValueBound
                  kv.k.userKey) := by
              rintro (h | h | ⟨_, _, hlt⟩)
              · exact h1 h
              · exact h2 h
              · exact h5 hlt
            constructor
            · simp only [writeNewAdd, if_neg h1, if_neg h2, if_pos h3, if_neg h4,
                if_neg h5, writeNewSeparate, BlobFileWriter.addValue]
              simp [iff_false_intro hnc]
            · intro _
              constructor
              · simp only [writeNewAdd, if_neg h1, if_neg h2, if_pos h3, if_neg h4,
                  if_neg h5, writeNewSeparate, BlobFileWriter.addValue]
                exact ⟨_, _, rfl⟩
              · simp only [writeNewAdd, if_neg h1, if_neg h2, if_pos h3, if_neg h4,
                  if_neg h5, writeNewSeparate, BlobFileWriter.addValue,
                  WriteNewBlobFiles.blobValues]
                cases hw : vs.writer <;> simp [hw]
      · have hnc : ¬ (kv.v.fetch.length < vs.minimumSize ∨
            kv.k.kind = InternalKeyKind.kMerge ∨
            inRequiredInPlaceBound vs.comparer vs.requiredInPlaceValueBound
              kv.k.userKey) := by
          rintro (h | h | ⟨hne, _, _⟩)
          · exact h1 h
          · exact h2 h
          · exact h3 hne
        constructor
        · simp only [writeNewAdd, if_neg h1, if_neg h2, if_neg h3,
            writeNewSeparate, BlobFileWriter.addValue]
          simp [iff_false_intro hnc]
        · intro _
          constructor
          · simp only [writeNewAdd, if_neg h1, if_neg h2, if_neg h3,
              writeNewSeparate, BlobFileWriter.addValue]
            exact ⟨_, _, rfl⟩
          · simp only [writeNewAdd, if_neg h1, if_neg h2, if_neg h3,
              writeNewSeparate, BlobFileWriter.addValue,
              WriteNewBlobFiles.blobValues]
            cases hw : vs.writer <;> simp [hw]

theorem writeNewAdd_inline_iff_witness :
    (¬ (c1KV.v.fetch.length < c1State.minimumSize ∨
        c1KV.k.kind = InternalKeyKind.kMerge ∨
        inRequiredInPlaceBound c1State.comparer c1State.requiredInPlaceValueBound
          c1KV.k.userKey)) ∧
    ((∃ suffix shortAttr,
        (writeNewAdd c1State c1KV false).2 = SSTEntry.addWithBlobHandle c1KV.k
          { referenceIndex := 0, valueLen := c1KV.v.fetch.length, suffix := suffix }
          shortAttr false) ∧
      (writeNewAdd c1State c1KV false).1.blobValues =
        c1State.blobValues ++ [c1KV.v.fetch]) := by
  have hnc : ¬ (c1KV.v.fetch.length < c1State.minimumSize ∨
      c1KV.k.kind = InternalKeyKind.kMerge ∨
      inRequiredInPlaceBound c1State.comparer c1State.requiredInPlaceValueBound
        c1KV.k.userKey) := by
    simp only [inRequiredInPlaceBound]
    decide
  exact ⟨hnc, (writeNewAdd_inline_iff c1State c1KV false).2 hnc⟩

/-! ## Claim C7: one blob file per output, reference index always 0 -/

/-- Case split shared by the claims about `writeNewBlobFiles.Add`: each call
either writes the fetched value inline and leaves the policy state's writer
unchanged, or appends the value to the blob file and writes a handle with
reference index 0. -/
theorem writeNewAdd_inline_or_separate (vs : WriteNewBlobFiles)
    (kv : InternalKV) (fo : Bool) :
    ((writeNewAdd vs kv fo).2 = SSTEntry.addValue kv.k kv.v.fetch fo ∧
      (writeNewAdd vs kv fo).1.writer = vs.writer) ∨
    (∃ suffix shortAttr,
      (writeNewAdd vs kv fo).2 = SSTEntry.addWithBlobHandle kv.k
        { referenceIndex := 0, valueLen := kv.v.fetch.length, suffix := suffix }
        shortAttr fo ∧
      (writeNewAdd vs kv fo).1.blobValues = vs.blobValues ++ [kv.v.fetch] ∧
      (writeNewAdd vs kv fo).1.writer.isSome = true) := by
  by_cases h1 : kv.v.fetch.length < vs.minimumSize
  · left
    constructor <;> simp only [writeNewAdd, if_pos h1]
  · by_cases h2 : kv.k.kind = InternalKeyKind.kMerge
    · left
      constructor <;> simp only [writeNewAdd, if_neg h1, if_pos h2]
    · by_cases h3 : vs.requiredInPlaceValueBound.isEmpty = false
      · by_cases h4 : vs.comparer.compare vs.requiredInPlaceValueBound.upper
            (vs.comparer.splitPref kv.k.userKey) ≠ Ordering.gt
        · right
          refine ⟨{ blockNum := 0, offsetInBlock := (vs.blobValues.map List.length).sum },
            (match vs.shortAttrExtractor with
             | Option.none => 0
             | some f => f kv.k.userKey (vs.comparer.split kv.k.userKey) kv.v.fetch),
            ?_, ?_, ?_⟩ <;>
              simp only [writeNewAdd, if_neg h1, if_neg h2, if_pos h3, if_pos h4,
                writeNewSeparate, BlobFileWriter.addValue,
                WriteNewBlobFiles.blobValues] <;>
              cases hw : vs.writer <;> simp [hw]
        · by_cases h5 : vs.comparer.compare (vs.comparer.splitPref kv.k.userKey)
              vs.requiredInPlaceValueBound.lower ≠ Ordering.lt
          · left
            constructor <;>
              simp only [writeNewAdd, if_neg h1, if_neg h2, if_pos h3, if_neg h4,
                if_pos h5]
          · right
            refine ⟨{ blockNum := 0, offsetInBlock := (vs.blobValues.map List.length).sum },
            (match vs.shortAttrExtractor with
             | Option.none => 0
             | some f => f kv.k.userKey (vs.comparer.split kv.k.userKey) kv.v.fetch),
            ?_, ?_, ?_⟩ <;>
                simp only [writeNewAdd, if_neg h1, if_neg h2, if_pos h3, if_neg h4,
                  if_neg h5, writeNewSeparate, BlobFileWriter.addValue,
                  WriteNewBlobFiles.blobValues] <;>
                cases hw : vs.writer <;> simp [hw]
      · right
        refine ⟨{ blockNum := 0, offsetInBlock := (vs.blobValues.map List.length).sum },
            (match vs.shortAttrExtractor with
             | Option.none => 0
             | some f => f kv.k.userKey (vs.comparer.split kv.k.userKey) kv.v.fetch),
            ?_, ?_, ?_⟩ <;>
            simp only [writeNewAdd, if_neg h1, if_neg h2, if_neg h3,
              writeNewSeparate, BlobFileWriter.addValue,
              WriteNewBlobFiles.blobValues] <;>
            cases hw : vs.writer <;> simp [hw]

theorem writeNewAdd_refIdx (vs : WriteNewBlobFiles) (kv : InternalKV) (fo : Bool) :
    ((writeNewAdd vs kv fo).2).refIdx? = Option.none ∨
    ((writeNewAdd vs kv fo).2).refIdx? = some 0 := by
  rcases writeNewAdd_inline_or_separate vs kv fo with ⟨he, _⟩ | ⟨su, sa, he, _, _⟩
  · left
    rw [he]
    rfl
  · right
    rw [he]
    rfl

theorem writeNewAdd_writer_none_iff (vs : WriteNewBlobFiles) (kv : InternalKV)
    (fo : Bool) :
    ((writeNewAdd vs kv fo).1.writer = Option.none) ↔
      (vs.writer = Option.none ∧ ((writeNewAdd vs kv fo).2).isBlob = false) := by
  rcases writeNewAdd_inline_or_separate vs kv fo with ⟨he, hw⟩ | ⟨su, sa, he, _, hsome⟩
  · rw [he, hw]
    simp [SSTEntry.isBlob, SSTEntry.refIdx?]
  · rw [he]
    constructor
    · intro h
      rw [h] at hsome
      exact absurd hsome (by simp)
    · intro ⟨_, h⟩
      exact absurd h (by simp [SSTEntry.isBlob, SSTEntry.refIdx?])

theorem writeNewProcess_refIdx (kvs : List (InternalKV × Bool)) :
    ∀ (vs : WriteNewBlobFiles), ∀ e ∈ (writeNewProcess vs kvs).2,
      e.refIdx? = Option.none ∨ e.refIdx? = some 0 := by
  induction kvs with
  | nil =>
    intro vs e he
    simp [writeNewProcess] at he
  | cons p rest ih =>
    intro vs e he
    obtain ⟨kv, fo⟩ := p
    simp only [writeNewProcess, List.mem_cons] at he
    rcases he with rfl | he
    · exact writeNewAdd_refIdx vs kv fo
    · exact ih (writeNewAdd vs kv fo).1 e he

theorem writeNewProcess_writer_none_iff (kvs : List (InternalKV × Bool)) :
    ∀ (vs : WriteNewBlobFiles),
      ((writeNewProcess vs kvs).1.writer = Option.none) ↔
        (vs.writer = Option.none ∧
          ∀ e ∈ (writeNewProcess vs kvs).2, e.isBlob = false) := by
  induction kvs with
  | nil =>
    intro vs
    simp [writeNewProcess]
  | cons p rest ih =>
    intro vs
    obtain ⟨kv, fo⟩ := p
    simp only [writeNewProcess, List.mem_cons]
    constructor
    · intro h
      have h1 := (ih (writeNewAdd vs kv fo).1).mp h
      have h2 := (writeNewAdd_writer_none_iff vs kv fo).mp h1.1
      refine ⟨h2.1, ?_⟩
      intro e he
      rcases he with rfl | he
      · exact h2.2
      · exact h1.2 e he
    · intro ⟨h0, hall⟩
      apply (ih (writeNewAdd vs kv fo).1).mpr
      refine ⟨?_, fun e he => hall e (Or.inr he)⟩
      exact (writeNewAdd_writer_none_iff vs kv fo).mpr
        ⟨h0, hall _ (Or.inl rfl)⟩

/-- C7: over any run of `writeNewBlobFiles.Add` calls starting with no blob
writer, every blob handle written to the sstable carries reference index 0;
the blob file object exists after the run exactly when some value was
separated; if every value was written inline, `FinishOutput` returns empty
metadata (and no error); and if at least one value was separated,
`FinishOutput` returns exactly one blob reference with blob-reference
depth 1. -/
theorem writeNew_single_blob_file (vs0 : WriteNewBlobFiles)
    (kvs : List (InternalKV × Bool)) (h0 : vs0.writer = Option.none) :
    (∀ e ∈ (writeNewProcess vs0 kvs).2,
      e.refIdx? = Option.none ∨ e.refIdx? = some 0) ∧
    ((writeNewProcess vs0 kvs).1.writer = Option.none ↔
      ∀ e ∈ (writeNewProcess vs0 kvs).2, e.isBlob = false) ∧
    ((∀ e ∈ (writeNewProcess vs0 kvs).2, e.isBlob = false) →
      writeNewFinishOutput (writeNewProcess vs0 kvs).1 =
        ({ blobReferences := [], blobReferenceSize := 0, blobReferenceDepth := 0,
           blobFileMetadata := Option.none }, (writeNewProcess vs0 kvs).1)) ∧
    ((∃ e ∈ (writeNewProcess vs0 kvs).2, e.isBlob = true) →
      (writeNewFinishOutput (writeNewProcess vs0 kvs).1).1.blobReferences.length = 1 ∧
      (writeNewFinishOutput (writeNewProcess vs0 kvs).1).1.blobReferenceDepth = 1) := by
  have hiff : ((writeNewProcess vs0 kvs).1.writer = Option.none) ↔
      ∀ e ∈ (writeNewProcess vs0 kvs).2, e.isBlob = false := by
    rw [writeNewProcess_writer_none_iff kvs vs0]
    simp [h0]
  refine ⟨writeNewProcess_refIdx kvs vs0, hiff, ?_, ?_⟩
  · intro hall
    have hw := hiff.mpr hall
    rw [writeNewFinishOutput, hw]
  · intro ⟨e, he, hblob⟩
    cases hw : (writeNewProcess vs0 kvs).1.writer with
    | none =>
      have := (hiff.mp hw) e he
      rw [hblob] at this
      exact absurd this (by simp)
    | some w =>
      rw [writeNewFinishOutput, hw]
      exact ⟨rfl, rfl⟩

theorem writeNew_single_blob_file_witness :
    c1State.writer = Option.none ∧
    ∀ e ∈ (writeNewProcess c1State c7KVs).2,
      e.refIdx? = Option.none ∨ e.refIdx? = some 0 :=
  ⟨rfl, (writeNew_single_blob_file c1State c7KVs rfl).1⟩

/-! ## Helper lemmas: first-occurrence bookkeeping -/

theorem firstOccAux_append (l1 l2 acc : List Nat) :
    firstOccAux acc (l1 ++ l2) = firstOccAux (firstOccAux acc l1) l2 := by
  induction l1 generalizing acc with
  | nil => simp [firstOccAux]
  | cons a l ih =>
    rw [List.cons_append, firstOccAux, firstOccAux]
    exact ih (addFirstOcc acc a)

theorem firstOccAux_extends (l : List Nat) :
    ∀ acc, ∃ t, firstOccAux acc l = acc ++ t := by
  induction l with
  | nil => exact fun acc => ⟨[], by simp [firstOccAux]⟩
  | cons a l ih =>
    intro acc
    by_cases h : a ∈ acc
    · rw [firstOccAux, addFirstOcc, if_pos h]
      exact ih acc
    · rw [firstOccAux, addFirstOcc, if_neg h]
      obtain ⟨t, ht⟩ := ih (acc ++ [a])
      exact ⟨[a] ++ t, by rw [ht, List.append_assoc]⟩

theorem idxOfA_append_left {a : Nat} (acc t : List Nat) (h : a ∈ acc) :
    idxOfA a (acc ++ t) = idxOfA a acc := by
  induction acc with
  | nil => cases h
  | cons b l ih =>
    rw [List.cons_append, idxOfA, idxOfA]
    by_cases hb : b = a
    · rw [if_pos hb, if_pos hb]
    · rw [if_neg hb, if_neg hb]
      rcases List.mem_cons.mp h with h1 | h1
      · exact absurd h1.symm hb
      · rw [ih h1]

theorem mem_firstOccAux_left {a : Nat} (l : List Nat) (acc : List Nat)
    (h : a ∈ acc) : a ∈ firstOccAux acc l := by
  obtain ⟨t, ht⟩ := firstOccAux_extends l acc
  rw [ht]
  exact List.mem_append_left t h

theorem mem_addFirstOcc_self (acc : List Nat) (a : Nat) :
    a ∈ addFirstOcc acc a := by
  unfold addFirstOcc
  by_cases h : a ∈ acc
  · rwa [if_pos h]
  · rw [if_neg h]
    simp

theorem mem_firstOccAux_of_mem {a : Nat} (l : List Nat) :
    ∀ acc, a ∈ l → a ∈ firstOccAux acc l := by
  induction l with
  | nil =>
    intro acc h
    cases h
  | cons b l ih =>
    intro acc h
    rcases List.mem_cons.mp h with rfl | h1
    · rw [firstOccAux]
      exact mem_firstOccAux_left l _ (mem_addFirstOcc_self acc a)
    · rw [firstOccAux]
      exact ih _ h1

theorem mem_of_mem_firstOccAux {a : Nat} (l : List Nat) :
    ∀ acc, a ∈ firstOccAux acc l → a ∈ acc ∨ a ∈ l := by
  induction l with
  | nil =>
    intro acc h
    exact Or.inl h
  | cons b l ih =>
    intro acc h
    rw [firstOccAux] at h
    rcases ih _ h with h1 | h1
    · unfold addFirstOcc at h1
      by_cases hb : b ∈ acc
      · rw [if_pos hb] at h1
        exact Or.inl h1
      · rw [if_neg hb] at h1
        rcases List.mem_append.mp h1 with h2 | h2
        · exact Or.inl h2
        · simp only [List.mem_singleton] at h2
          subst h2
          exact Or.inr (List.mem_cons_self a l)
    · exact Or.inr (List.mem_cons_of_mem _ h1)

theorem nodup_firstOccAux (l : List Nat) :
    ∀ acc, acc.Nodup → (firstOccAux acc l).Nodup := by
  induction l with
  | nil =>
    intro acc h
    exact h
  | cons b l ih =>
    intro acc h
    rw [firstOccAux]
    apply ih
    unfold addFirstOcc
    by_cases hb : b ∈ acc
    · rwa [if_pos hb]
    · rw [if_neg hb, List.nodup_append]
      refine ⟨h, List.nodup_singleton b, fun a ha hab => ?_⟩
      simp only [List.mem_singleton] at hab
      subst hab
      exact hb ha

theorem idxOfA_getElem (l : List Nat) :
    ∀ (j : Nat) (a : Nat), l.Nodup → l[j]? = some a → idxOfA a l = j := by
  induction l with
  | nil =>
    intro j a _ h
    simp at h
  | cons b l ih =>
    intro j a hnd h
    cases j with
    | zero =>
      rw [List.getElem?_cons_zero, Option.some_inj] at h
      rw [idxOfA, if_pos h]
    | succ j =>
      rw [List.getElem?_cons_succ] at h
      have hb : ¬ b = a := by
        intro hba
        subst hba
        exact ((List.nodup_cons.mp hnd).1) (List.getElem?_mem h)
      rw [idxOfA, if_neg hb, ih j a (List.nodup_cons.mp hnd).2 h]

theorem idxOfA_append_self (a : Nat) (l : List Nat) (h : a ∉ l) :
    idxOfA a (l ++ [a]) = l.length := by
  induction l with
  | nil => simp [idxOfA]
  | cons b t ih =>
    rw [List.cons_append, idxOfA]
    have hb : ¬ b = a := fun hba => h (hba ▸ List.mem_cons_self b t)
    rw [if_neg hb, ih (fun ht => h (List.mem_cons_of_mem b ht))]
    rfl

/-! ## Helper lemmas: preserveBlobReferences single step -/

theorem bumpValueSize_map_fileNum (refs : List BlobReference) :
    ∀ (i d : Nat), (bumpValueSize refs i d).map (fun r => r.fileNum) =
      refs.map (fun r => r.fileNum) := by
  induction refs with
  | nil =>
    intro i d
    rfl
  | cons r rest ih =>
    intro i d
    cases i with
    | zero => simp [bumpValueSize]
    | succ i => simp [bumpValueSize, ih]

theorem findRefIdx_none {fn : Nat} {refs : List BlobReference}
    (h : findRefIdx fn refs = Option.none) :
    fn ∉ refs.map (fun r => r.fileNum) := by
  induction refs with
  | nil => simp
  | cons r rest ih =>
    rw [findRefIdx] at h
    by_cases hr : r.fileNum = fn
    · rw [if_pos hr] at h
      exact absurd h (by simp)
    · rw [if_neg hr] at h
      have h2 : findRefIdx fn rest = Option.none := by
        cases hf : findRefIdx fn rest with
        | none => rfl
        | some j =>
          rw [hf] at h
          exact absurd h (by simp)
      simp only [List.map_cons, List.mem_cons]
      rintro (hc | hc)
      · exact hr hc.symm
      · exact ih h2 hc

theorem findRefIdx_some {fn : Nat} {refs : List BlobReference} :
    ∀ j, findRefIdx fn refs = some j →
      fn ∈ refs.map (fun r => r.fileNum) ∧
      idxOfA fn (refs.map (fun r => r.fileNum)) = j := by
  induction refs with
  | nil =>
    intro j h
    exact absurd h (by simp [findRefIdx])
  | cons r rest ih =>
    intro j h
    rw [findRefIdx] at h
    by_cases hr : r.fileNum = fn
    · rw [if_pos hr] at h
      rw [Option.some_inj] at h
      subst h
      constructor
      · simp [hr]
      · rw [List.map_cons, idxOfA, if_pos hr]
    · rw [if_neg hr] at h
      cases hf : findRefIdx fn rest with
      | none =>
        rw [hf] at h
        exact absurd h (by simp)
      | some j' =>
        rw [hf] at h
        simp only [Option.map_some', Option.some_inj] at h
        obtain ⟨hmem, hidx⟩ := ih j' hf
        constructor
        · simp only [List.map_cons, List.mem_cons]
          exact Or.inr hmem
        · rw [List.map_cons, idxOfA, if_neg hr, hidx, h]

theorem preserveAdd_inPlace (vs : PreserveBlobReferences) (kv : InternalKV)
    (fo : Bool) (v : List Nat) (hv : kv.v = KVValue.inPlace v) :
    preserveAdd vs kv fo = some (vs, SSTEntry.addValue kv.k v fo) := by
  rw [preserveAdd, hv]

theorem preserveAdd_blob (vs : PreserveBlobReferences) (kv : InternalKV)
    (fo : Bool) (fn vlen sattr : Nat) (suffix : HandleSuffix) (w : List Nat)
    (hv : kv.v = KVValue.blobValueHandle fn vlen sattr suffix w)
    (vs' : PreserveBlobReferences) (e : SSTEntry)
    (h : preserveAdd vs kv fo = some (vs', e)) :
    vs'.currReferences.map (fun r => r.fileNum) =
      addFirstOcc (vs.currReferences.map (fun r => r.fileNum)) fn ∧
    e = SSTEntry.addWithBlobHandle kv.k
      { referenceIndex := idxOfA fn
          (addFirstOcc (vs.currReferences.map (fun r => r.fileNum)) fn),
        valueLen := vlen, suffix := suffix } sattr fo ∧
    vs'.outputBlobReferenceDepth = vs.outputBlobReferenceDepth := by
  rw [preserveAdd, hv] at h
  simp only [] at h
  cases hf : findRefIdx fn vs.currReferences with
  | some refIdx =>
    rw [hf] at h
    simp only [Option.some.injEq, Prod.mk.injEq] at h
    obtain ⟨h1, h2⟩ := h
    obtain ⟨hmem, hidx⟩ := findRefIdx_some refIdx hf
    have hocc : addFirstOcc (vs.currReferences.map (fun r => r.fileNum)) fn =
        vs.currReferences.map (fun r => r.fileNum) := by
      rw [addFirstOcc, if_pos hmem]
    refine ⟨?_, ?_, ?_⟩
    · rw [← h1, hocc]
      exact bumpValueSize_map_fileNum vs.currReferences refIdx vlen
    · rw [← h2, hocc, hidx]
    · rw [← h1]
  | none =>
    rw [hf] at h
    have hnot := findRefIdx_none hf
    cases hfound : (findInputBlobMetadata vs.inputBlobMetadatas fn).2 with
    | false =>
      rw [if_neg (by rw [hfound]; exact Bool.false_ne_true)] at h
      exact absurd h (by simp)
    | true =>
      rw [if_pos hfound] at h
      simp only [Option.some.injEq, Prod.mk.injEq] at h
      obtain ⟨h1, h2⟩ := h
      have hocc : addFirstOcc (vs.currReferences.map (fun r => r.fileNum)) fn =
          vs.currReferences.map (fun r => r.fileNum) ++ [fn] := by
        rw [addFirstOcc, if_neg hnot]
      refine ⟨?_, ?_, ?_⟩
      · rw [← h1, hocc]
        simp only [bumpValueSize_map_fileNum, List.map_append, List.map_cons,
          List.map_nil]
      · rw [← h2, hocc, idxOfA_append_self fn _ hnot]
        have hlen : (vs.currReferences.map (fun r => r.fileNum)).length =
            vs.currReferences.length := List.length_map _ _
        rw [hlen]
      · rw [← h1]

/-- Invariant of a run of `preserveBlobReferences.Add`: the accumulated
references list the referenced blob files in first-appearance order, the
carried depth is untouched, and each emitted entry is the input's key-value
pair — in-place values passed through unchanged, blob handles re-indexed to
the position of their file in the first-appearance order so far. -/
theorem preserveProcess_spec (kvs : List (InternalKV × Bool)) :
    ∀ (vs0 vs : PreserveBlobReferences) (es : List SSTEntry),
      preserveProcess vs0 kvs = some (vs, es) →
      vs.currReferences.map (fun r => r.fileNum) =
        firstOccAux (vs0.currReferences.map (fun r => r.fileNum)) (blobFns kvs) ∧
      vs.outputBlobReferenceDepth = vs0.outputBlobReferenceDepth ∧
      es.length = kvs.length ∧
      (∀ (i : Nat) (kv : InternalKV) (fo : Bool), kvs[i]? = some (kv, fo) →
        (∀ v, kv.v = KVValue.inPlace v →
          es[i]? = some (SSTEntry.addValue kv.k v fo)) ∧
        (∀ fn vlen sattr suffix w,
          kv.v = KVValue.blobValueHandle fn vlen sattr suffix w →
          es[i]? = some (SSTEntry.addWithBlobHandle kv.k
            { referenceIndex := idxOfA fn (firstOccAux
                (vs0.currReferences.map (fun r => r.fileNum))
                (blobFns (kvs.take (i + 1)))),
              valueLen := vlen, suffix := suffix } sattr fo))) := by
  induction kvs with
  | nil =>
    intro vs0 vs es h
    simp only [preserveProcess, Option.some.injEq, Prod.mk.injEq] at h
    obtain ⟨h1, h2⟩ := h
    subst h1
    subst h2
    refine ⟨by simp [blobFns, firstOccAux], rfl, rfl, ?_⟩
    intro i kv fo hi
    simp at hi
  | cons p rest ih =>
    intro vs0 vs es h
    obtain ⟨kv0, fo0⟩ := p
    rw [preserveProcess] at h
    cases ha : preserveAdd vs0 kv0 fo0 with
    | none =>
      rw [ha] at h
      exact absurd h (by simp)
    | some r1 =>
      obtain ⟨vs1, e1⟩ := r1
      rw [ha] at h
      simp only [] at h
      cases hp : preserveProcess vs1 rest with
      | none =>
        rw [hp] at h
        exact absurd h (by simp)
      | some r2 =>
        obtain ⟨vs2, es2⟩ := r2
        rw [hp] at h
        simp only [Option.some.injEq, Prod.mk.injEq] at h
        obtain ⟨h1, h2⟩ := h
        subst h1
        subst h2
        obtain ⟨ih1, ih2, ih3, ih4⟩ := ih vs1 vs2 es2 hp
        cases hv : kv0.v with
        | inPlace v =>
          have hstep := preserveAdd_inPlace vs0 kv0 fo0 v hv
          rw [hstep, Option.some_inj, Prod.mk.injEq] at ha
          obtain ⟨ha1, ha2⟩ := ha
          subst ha1
          subst ha2
          have hfns : blobFns ((kv0, fo0) :: rest) = blobFns rest := by
            simp [blobFns, List.filterMap_cons, kvBlobFileNum?, hv]
          refine ⟨by rw [hfns]; exact ih1, ih2, by simp [ih3], ?_⟩
          intro i kv fo hi
          cases i with
          | zero =>
            rw [List.getElem?_cons_zero, Option.some_inj] at hi
            cases hi
            constructor
            · intro v' hv'
              rw [hv] at hv'
              cases hv'
              rw [List.getElem?_cons_zero]
            · intro fn' vlen' sattr' suffix' w' hv'
              rw [hv] at hv'
              exact absurd hv' (by simp)
          | succ i =>
            rw [List.getElem?_cons_succ] at hi
            obtain ⟨hin, hblob⟩ := ih4 i kv fo hi
            constructor
            · intro v' hv'
              rw [List.getElem?_cons_succ]
              exact hin v' hv'
            · intro fn' vlen' sattr' suffix' w' hv'
              rw [List.getElem?_cons_succ, hblob fn' vlen' sattr' suffix' w' hv']
              have htake : ((kv0, fo0) :: rest).take (i + 1 + 1) =
                  (kv0, fo0) :: rest.take (i + 1) := List.take_succ_cons ..
              rw [htake]
              have hfns2 : blobFns ((kv0, fo0) :: rest.take (i + 1)) =
                  blobFns (rest.take (i + 1)) := by
                simp [blobFns, List.filterMap_cons, kvBlobFileNum?, hv]
              rw [hfns2]
        | blobValueHandle fn vlen sattr suffix w =>
          obtain ⟨hb1, hb2, hb3⟩ :=
            preserveAdd_blob vs0 kv0 fo0 fn vlen sattr suffix w hv vs1 e1 ha
          have hfns : blobFns ((kv0, fo0) :: rest) = fn :: blobFns rest := by
            simp [blobFns, List.filterMap_cons, kvBlobFileNum?, hv]
          have hacc : firstOccAux (vs0.currReferences.map (fun r => r.fileNum))
              (blobFns ((kv0, fo0) :: rest)) =
              firstOccAux (vs1.currReferences.map (fun r => r.fileNum))
                (blobFns rest) := by
            rw [hfns, firstOccAux, hb1]
          refine ⟨by rw [hacc]; exact ih1, ih2.trans hb3, by simp [ih3], ?_⟩
          intro i kv fo hi
          cases i with
          | zero =>
            rw [List.getElem?_cons_zero, Option.some_inj] at hi
            cases hi
            constructor
            · intro v' hv'
              rw [hv] at hv'
              exact absurd hv' (by simp)
            · intro fn' vlen' sattr' suffix' w' hv'
              rw [hv] at hv'
              injection hv' with e1' e2' e3' e4' e5'
              subst e1'
              subst e2'
              subst e3'
              subst e4'
              rw [List.getElem?_cons_zero, hb2]
              have htake : ((kv0, fo0) :: rest).take 1 = [(kv0, fo0)] := rfl
              rw [htake]
              have hfns1 : blobFns [(kv0, fo0)] = [fn] := by
                simp [blobFns, List.filterMap_cons, kvBlobFileNum?, hv]
              rw [hfns1]
              rfl
          | succ i =>
            rw [List.getElem?_cons_succ] at hi
            obtain ⟨hin, hblob⟩ := ih4 i kv fo hi
            constructor
            · intro v' hv'
              rw [List.getElem?_cons_succ]
              exact hin v' hv'
            · intro fn' vlen' sattr' suffix' w' hv'
              rw [List.getElem?_cons_succ, hblob fn' vlen' sattr' suffix' w' hv']
              have htake : ((kv0, fo0) :: rest).take (i + 1 + 1) =
                  (kv0, fo0) :: rest.take (i + 1) := List.take_succ_cons ..
              rw [htake]
              have hfns2 : blobFns ((kv0, fo0) :: rest.take (i + 1)) =
                  fn :: blobFns (rest.take (i + 1)) := by
                simp [blobFns, List.filterMap_cons, kvBlobFileNum?, hv]
              rw [hfns2, firstOccAux, hb1]

theorem idxOfA_firstOccAux_stable (A B : List Nat) (a : Nat) (h : a ∈ A) :
    idxOfA a (firstOccAux A B) = idxOfA a A := by
  obtain ⟨t, ht⟩ := firstOccAux_extends B A
  rw [ht]
  exact idxOfA_append_left A t h

theorem blobFns_take_full (kvs : List (InternalKV × Bool)) (i : Nat) :
    blobFns kvs = blobFns (kvs.take (i + 1)) ++ blobFns (kvs.drop (i + 1)) := by
  rw [blobFns, blobFns, blobFns, ← List.filterMap_append, List.take_append_drop]

theorem mem_blobFns_take (kvs : List (InternalKV × Bool)) (i : Nat)
    (kv : InternalKV) (fo : Bool) (fn vlen sattr : Nat) (suffix : HandleSuffix)
    (w : List Nat) (hi : kvs[i]? = some (kv, fo))
    (hv : kv.v = KVValue.blobValueHandle fn vlen sattr suffix w) :
    fn ∈ blobFns (kvs.take (i + 1)) := by
  rw [blobFns, List.take_succ, hi, List.filterMap_append]
  apply List.mem_append_right
  simp [kvBlobFileNum?, hv]

theorem idxOfA_firstOcc_take (kvs : List (InternalKV × Bool)) (i : Nat) (fn : Nat)
    (hmem : fn ∈ blobFns (kvs.take (i + 1))) :
    idxOfA fn (firstOccAux [] (blobFns (kvs.take (i + 1)))) =
      idxOfA fn (firstOccList (blobFns kvs)) := by
  have hsplit : firstOccList (blobFns kvs) =
      firstOccAux (firstOccAux [] (blobFns (kvs.take (i + 1))))
        (blobFns (kvs.drop (i + 1))) := by
    rw [firstOccList, blobFns_take_full kvs i, firstOccAux_append]
  rw [hsplit, idxOfA_firstOccAux_stable _ _ _
    (mem_firstOccAux_of_mem _ _ hmem)]

/-! ## Claim C2: dense per-output re-indexing of preserved blob references -/

/-- C2: over any successful run of `preserveBlobReferences.Add` calls from a
fresh state, each key-value pair produces exactly one sstable write; already
in-place values pass through `Add` unchanged and create no blob reference;
each blob-handle value is written with the reference index equal to the
position of its blob file number in the order of first appearance among the
run's blob-handle values; those indices cover exactly `0, ..., k-1` where `k`
is the number of distinct blob files; and `FinishOutput` resets the reference
list so the next output restarts at index 0. -/
theorem preserve_add_dense_reindexing (metas : List BlobFileMetadata)
    (depth : Nat) (kvs : List (InternalKV × Bool)) (vs : PreserveBlobReferences)
    (es : List SSTEntry)
    (h : preserveProcess (preserveInit metas depth) kvs = some (vs, es)) :
    es.length = kvs.length ∧
    (∀ (i : Nat) (kv : InternalKV) (fo : Bool), kvs[i]? = some (kv, fo) →
      (∀ v, kv.v = KVValue.inPlace v →
        es[i]? = some (SSTEntry.addValue kv.k v fo)) ∧
      (∀ fn vlen sattr suffix w,
        kv.v = KVValue.blobValueHandle fn vlen sattr suffix w →
        es[i]? = some (SSTEntry.addWithBlobHandle kv.k
          { referenceIndex := idxOfA fn (firstOccList (blobFns kvs)),
            valueLen := vlen, suffix := suffix } sattr fo))) ∧
    (∀ j, j < (firstOccList (blobFns kvs)).length →
      ∃ (i : Nat) (e : SSTEntry), es[i]? = some e ∧ e.refIdx? = some j) ∧
    (preserveFinishOutput vs).2.currReferences = [] := by
  obtain ⟨hs1, hs2, hs3, hs4⟩ :=
    preserveProcess_spec kvs (preserveInit metas depth) vs es h
  have hinit : (preserveInit metas depth).currReferences.map
      (fun r => r.fileNum) = ([] : List Nat) := rfl
  rw [hinit] at hs1 hs4
  refine ⟨hs3, ?_, ?_, by simp [preserveFinishOutput]⟩
  · intro i kv fo hi
    obtain ⟨hin, hblob⟩ := hs4 i kv fo hi
    refine ⟨hin, ?_⟩
    intro fn vlen sattr suffix w hv
    rw [hblob fn vlen sattr suffix w hv,
      idxOfA_firstOcc_take kvs i fn
        (mem_blobFns_take kvs i kv fo fn vlen sattr suffix w hi hv)]
  · intro j hj
    have hLj : (firstOccList (blobFns kvs))[j]? =
        some ((firstOccList (blobFns kvs))[j]) :=
      List.getElem?_eq_getElem hj
    have hmemL : (firstOccList (blobFns kvs))[j] ∈ firstOccList (blobFns kvs) :=
      List.getElem_mem hj
    have hmemB : (firstOccList (blobFns kvs))[j] ∈ blobFns kvs := by
      rcases mem_of_mem_firstOccAux _ [] hmemL with hc | hc
      · cases hc
      · exact hc
    obtain ⟨p, hp, hfp⟩ := List.mem_filterMap.mp hmemB
    obtain ⟨i, hi⟩ := List.getElem?_of_mem hp
    obtain ⟨kv, fo⟩ := p
    have hv : ∃ vlen sattr suffix w,
        kv.v = KVValue.blobValueHandle ((firstOccList (blobFns kvs))[j])
          vlen sattr suffix w := by
      cases hkv : kv.v with
      | inPlace v =>
        rw [kvBlobFileNum?, hkv] at hfp
        exact absurd hfp (by simp)
      | blobValueHandle fn vlen sattr suffix w =>
        rw [kvBlobFileNum?, hkv, Option.some_inj] at hfp
        subst hfp
        exact ⟨vlen, sattr, suffix, w, rfl⟩
    obtain ⟨vlen, sattr, suffix, w, hv⟩ := hv
    obtain ⟨_, hblob⟩ := hs4 i kv fo hi
    have hent := hblob ((firstOccList (blobFns kvs))[j]) vlen sattr suffix w hv
    refine ⟨i, _, hent, ?_⟩
    rw [SSTEntry.refIdx?, Option.some_inj]
    rw [idxOfA_firstOcc_take kvs i _
      (mem_blobFns_take kvs i kv fo _ vlen sattr suffix w hi hv)]
    exact idxOfA_getElem _ j _
      (nodup_firstOccAux (blobFns kvs) [] List.nodup_nil) hLj

theorem preserve_add_dense_reindexing_witness :
    preserveProcess (preserveInit c2Metas 3) c2KVs = some (c2VS, c2ES) ∧
    c2ES.length = c2KVs.length :=
  ⟨by decide,
    (preserve_add_dense_reindexing c2Metas 3 c2KVs c2VS c2ES (by decide)).1⟩

/-! ## Claim C3: blob-reference depth is only ever reduced -/

/-- C3: after any successful run of `preserveBlobReferences.Add` calls from a
fresh state, the blob-reference depth `FinishOutput` reports equals the
minimum of the carried input depth and the number of distinct blob files the
output references, and in particular never exceeds the input depth. -/
theorem preserve_finish_depth (metas : List BlobFileMetadata) (depth : Nat)
    (kvs : List (InternalKV × Bool)) (vs : PreserveBlobReferences)
    (es : List SSTEntry)
    (h : preserveProcess (preserveInit metas depth) kvs = some (vs, es)) :
    (preserveFinishOutput vs).1.blobReferenceDepth =
      min depth (firstOccList (blobFns kvs)).length ∧
    (preserveFinishOutput vs).1.blobReferenceDepth ≤ depth := by
  obtain ⟨hs1, hs2, _, _⟩ :=
    preserveProcess_spec kvs (preserveInit metas depth) vs es h
  have hinit : (preserveInit metas depth).currReferences.map
      (fun r => r.fileNum) = ([] : List Nat) := rfl
  rw [hinit] at hs1
  have hlen : vs.currReferences.length = (firstOccList (blobFns kvs)).length := by
    have hmap := congrArg List.length hs1
    rw [List.length_map] at hmap
    rw [hmap, firstOccList]
  have hdepth : vs.outputBlobReferenceDepth = depth := hs2
  have hfin : (preserveFinishOutput vs).1.blobReferenceDepth =
      min vs.outputBlobReferenceDepth vs.currReferences.length := rfl
  constructor
  · rw [hfin, hdepth, hlen]
  · rw [hfin, hdepth]
    exact Nat.min_le_left _ _

theorem preserve_finish_depth_witness :
    preserveProcess (preserveInit c2Metas 1) c2KVs = some (c3VS, c2ES) ∧
    (preserveFinishOutput c3VS).1.blobReferenceDepth ≤ 1 :=
  ⟨by decide,
    (preserve_finish_depth c2Metas 1 c2KVs c3VS c2ES (by decide)).2⟩

/-! ## Claim C10: the totalValueSize bookkeeping across FinishOutput -/

/-- C10 fails on the code at `FinishOutput`: after a single blob-handle `Add`
of value length 5 the invariant `totalValueSize = Σ ValueSize` holds (both
are 5), but `FinishOutput` resets `currReferences` without resetting
`totalValueSize`, leaving `totalValueSize = 5` while the sum over the emptied
reference list is 0 — contradicting the field's own documentation
(src/value_separation.go line 201). -/
theorem preserve_totalValueSize_not_reset :
    (preserveAdd (preserveInit c2Metas 3) c10KV false).map
      (fun p => (p.1.totalValueSize,
        (p.1.currReferences.map (fun r => r.valueSize)).sum,
        (preserveFinishOutput p.1).2.totalValueSize,
        ((preserveFinishOutput p.1).2.currReferences.map
          (fun r => r.valueSize)).sum)) =
      some (5, 5, 5, 0) := by
  decide

/-! ## Claims C5 and C6: external-iterator shadowing scenarios -/

/-- C5: a merging iterator over the file holding the range deletion `[c, z)`
at sequence number 3 and the file holding point keys `b@1 := b` and
`c@2 := c`, scanned from the first entry, yields exactly `b := b` and then
exhaustion: `c` is shadowed by the overlapping range deletion with the higher
sequence number. -/
theorem externalIter_rangedel_shadows :
    mergingIterScan [extFile2, extFile1] = [([98], [98])] := by
  decide

/-- C6: adding the file with point keys `a@4 := a` and `f@5 := f` (sequence
numbers assigned after the range deletion's 3), the scan yields exactly
`a := a`, `b := b`, `f := f`: point keys whose sequence numbers exceed the
range deletion's are not shadowed by it. -/
theorem externalIter_newer_points_not_shadowed :
    mergingIterScan [extFile3, extFile2, extFile1] =
      [([97], [97]), ([98], [98]), ([102], [102])] := by
  decide

end Pebble
